import Mathlib

/-!
Verification of the BoxFramework halo-exchange core (grad510 repository).

The development shallowly embeds the C++ sources of `src/lib/src/BoxFramework`
into Lean.  The build-time dimension `g_SpaceDim` (declared in the missing
`Parameters.H`) is fixed to 3, the most general configuration: every component
branch of the `D_TERM` / `D_INVTERM` macros is active.  C++ `int` values are
modelled as unbounded `Int` (no arithmetic in the library approaches 2^31).
C++ integer division / modulus (truncation toward zero) is modelled with
`Int.tdiv` / `Int.tmod`.

`Box.H`, `BaseFab.H` and `IntVect.cpp` are not part of the source tree (only
their declarations, tests and callers are); the corresponding definitions
below are modelled from the specification and are pinned by the repository's
own tests `testBox.cpp` and `testIntVect.cpp`.  Every other definition is a
direct translation of the named source file.
-/

namespace BoxFW

/-- Translated from `IntVect.H`: an ordered tuple of `g_SpaceDim = 3` signed
integers.  The default constructor (defined in the missing `IntVect.cpp`) is
modelled as the all-zero vector, as asserted by `testIntVect.cpp`. -/
structure IntVect where
  x : Int
  y : Int
  z : Int
deriving DecidableEq, Repr

namespace IntVect

/-- Modelled from the spec: `IntVect::Zero`, the all-0 value. -/
def zero : IntVect := ⟨0, 0, 0⟩

/-- Modelled from the spec: `IntVect::Unit`, the all-1 value. -/
def unit : IntVect := ⟨1, 1, 1⟩

instance : Inhabited IntVect := ⟨zero⟩

/-- Pointwise addition (`IntVect::operator+=` / free `operator+`). -/
def add (a b : IntVect) : IntVect := ⟨a.x + b.x, a.y + b.y, a.z + b.z⟩

/-- Pointwise subtraction (`IntVect::operator-=` / free `operator-`). -/
def sub (a b : IntVect) : IntVect := ⟨a.x - b.x, a.y - b.y, a.z - b.z⟩

/-- Unary negation (`IntVect::operator-`). -/
def neg (a : IntVect) : IntVect := ⟨-a.x, -a.y, -a.z⟩

/-- Componentwise multiplication (free `operator*(IntVect, IntVect)`). -/
def mulV (a b : IntVect) : IntVect := ⟨a.x * b.x, a.y * b.y, a.z * b.z⟩

/-- Scaling by an integer (free `operator*(IntVect, int)`). -/
def scale (a : IntVect) (s : Int) : IntVect := ⟨a.x * s, a.y * s, a.z * s⟩

/-- Componentwise truncated division (free `operator/(IntVect, IntVect)`,
C++ `int` division truncates toward zero). -/
def divV (a b : IntVect) : IntVect := ⟨a.x.tdiv b.x, a.y.tdiv b.y, a.z.tdiv b.z⟩

/-- Add a scalar to every component (`IntVect::operator+=(int)`). -/
def addScalar (a : IntVect) (s : Int) : IntVect := ⟨a.x + s, a.y + s, a.z + s⟩

/-- Componentwise minimum (`IntVect::min`). -/
def minV (a b : IntVect) : IntVect := ⟨min a.x b.x, min a.y b.y, min a.z b.z⟩

/-- Componentwise maximum (`IntVect::max`). -/
def maxV (a b : IntVect) : IntVect := ⟨max a.x b.x, max a.y b.y, max a.z b.z⟩

/-- One norm `Σ |v_i|` (`IntVect::norm1`); the result of the C++ `int`
computation is non-negative, modelled as a `Nat`. -/
def norm1 (a : IntVect) : Nat := a.x.natAbs + a.y.natAbs + a.z.natAbs

/-- Sum of components (`IntVect::sum`). -/
def sum (a : IntVect) : Int := a.x + a.y + a.z

/-- Product of components (`IntVect::product`). -/
def product (a : IntVect) : Int := a.x * a.y * a.z

/-- Componentwise less-or-equal (free `operator<=`, a conjunction across
components). -/
def le (a b : IntVect) : Prop := a.x ≤ b.x ∧ a.y ≤ b.y ∧ a.z ≤ b.z

instance (a b : IntVect) : Decidable (le a b) := by
  unfold le; exact inferInstance

/-- Access a component by direction index (`IntVect::operator[]`). -/
def comp (a : IntVect) (d : Nat) : Int :=
  match d with
  | 0 => a.x
  | 1 => a.y
  | _ => a.z

/-- Set a component by direction index (writes through
`IntVect::operator[]`). -/
def setComp (a : IntVect) (d : Nat) (v : Int) : IntVect :=
  match d with
  | 0 => ⟨v, a.y, a.z⟩
  | 1 => ⟨a.x, v, a.z⟩
  | _ => ⟨a.x, a.y, v⟩

end IntVect

/-- Modelled from the spec: `Box`, a pair of IntVects `(lo, hi)` denoting the
closed cell-centred interval; `Box.H` is not in the source tree, the
operations below follow spec section 4.1 and are pinned by `testBox.cpp`. -/
structure Box where
  lo : IntVect
  hi : IntVect
deriving DecidableEq, Repr

namespace Box

/-- Modelled from the spec: a default-constructed `Box` is empty
(`testBox.cpp` asserts `Box().isEmpty()`). -/
def emptyBox : Box := ⟨IntVect.zero, IntVect.neg IntVect.unit⟩

instance : Inhabited Box := ⟨emptyBox⟩

/-- Modelled from the spec: `dimensions = hi − lo + 1`. -/
def dimensions (b : Box) : IntVect :=
  (b.hi.sub b.lo).addScalar 1

/-- Modelled from the spec: `size = Π (hi_i − lo_i + 1)`. -/
def size (b : Box) : Int := b.dimensions.product

/-- Modelled from the spec: a box is empty iff `hi_i < lo_i` in some
dimension. -/
def isEmpty (b : Box) : Prop := b.hi.x < b.lo.x ∨ b.hi.y < b.lo.y ∨ b.hi.z < b.lo.z

instance (b : Box) : Decidable (isEmpty b) := by
  unfold isEmpty; exact inferInstance

/-- Modelled from the spec: `grow(r)` applies `lo -= r`, `hi += r`. -/
def grow (b : Box) (r : Int) : Box :=
  ⟨b.lo.addScalar (-r), b.hi.addScalar r⟩

/-- Modelled from the spec: `grow(r, dir)` widens only direction `dir`. -/
def growDir (b : Box) (r : Int) (d : Nat) : Box :=
  ⟨b.lo.setComp d (b.lo.comp d - r), b.hi.setComp d (b.hi.comp d + r)⟩

/-- Modelled from the spec: `shift(v)` translates the box. -/
def shift (b : Box) (v : IntVect) : Box := ⟨b.lo.add v, b.hi.add v⟩

/-- Modelled from the spec: `shift(s, dir)` translates one direction. -/
def shiftDir (b : Box) (s : Int) (d : Nat) : Box :=
  ⟨b.lo.setComp d (b.lo.comp d + s), b.hi.setComp d (b.hi.comp d + s)⟩

/-- Modelled from the spec: intersection `a &= b` sets `lo := max(lo, lo)`,
`hi := min(hi, hi)` componentwise. -/
def inter (a b : Box) : Box := ⟨a.lo.maxV b.lo, a.hi.minV b.hi⟩

/-- Modelled from the spec: inclusive containment of a point. -/
def containsIV (b : Box) (p : IntVect) : Prop :=
  b.lo.le p ∧ p.le b.hi

instance (b : Box) (p : IntVect) : Decidable (containsIV b p) := by
  unfold containsIV; exact inferInstance

/-- Modelled from the spec: inclusive containment of a box
(`testBox.cpp` checks `boxA.contains(boxA.grow(-1))`). -/
def containsBox (b c : Box) : Prop := b.lo.le c.lo ∧ c.hi.le b.hi

instance (b c : Box) : Decidable (containsBox b c) := by
  unfold containsBox; exact inferInstance

/-- Modelled from the spec: `adjBox(w, dir, side)` returns the slab of width
`|w|` adjacent to the `side ∈ {-1,+1}` face along `dir`; `w > 0` lies outside
the box, `w < 0` inside (behaviour pinned by the four adjBox checks of
`testBox.cpp`). -/
def adjBox (b : Box) (w : Int) (d : Nat) (side : Int) : Box :=
  if side < 0 then
    if w > 0 then
      ⟨b.lo.setComp d (b.lo.comp d - w), b.hi.setComp d (b.lo.comp d - 1)⟩
    else
      ⟨b.lo, b.hi.setComp d (b.lo.comp d - w - 1)⟩
  else
    if w > 0 then
      ⟨b.lo.setComp d (b.hi.comp d + 1), b.hi.setComp d (b.hi.comp d + w)⟩
    else
      ⟨b.lo.setComp d (b.hi.comp d + w + 1), b.hi⟩

end Box

/-- Integers `lo, lo+1, …, hi` in increasing order (empty when `hi < lo`). -/
def axisRange (lo hi : Int) : List Int :=
  (List.range (hi + 1 - lo).toNat).map (fun i : Nat => lo + (i : Int))

/-- All cells of a box in Fortran order: component 0 (x) varies fastest. -/
def Box.cells (b : Box) : List IntVect :=
  (axisRange b.lo.z b.hi.z).flatMap fun cz =>
    (axisRange b.lo.y b.hi.y).flatMap fun cy =>
      (axisRange b.lo.x b.hi.x).map fun cx => ⟨cx, cy, cz⟩

/-- Translated from `BoxIterator.H` (`BoxIteratorImpl::operator++` with the
`g_SpaceDim == 3` branches active; the two sequential `if` statements of the
source are distributed into four explicit cases). -/
def boxIterInc (b : Box) (p : IntVect) : IntVect :=
  if p.x + 1 > b.hi.x then
    (if p.y + 1 > b.hi.y then ⟨b.lo.x, b.lo.y, p.z + 1⟩ else ⟨b.lo.x, p.y + 1, p.z⟩)
  else
    (if p.y > b.hi.y then ⟨p.x + 1, b.lo.y, p.z + 1⟩ else ⟨p.x + 1, p.y, p.z⟩)

/-- Translated from `BoxIterator.H` (`BoxIteratorImpl::ok`):
`m_box.contains(m_current)`. -/
def boxIterOk (b : Box) (p : IntVect) : Prop := b.containsIV p

/-- The sequence of positions visited by `for (BoxIterator it; it.ok(); ++it)`
starting from position `p`, with explicit fuel (the fuel only needs to exceed
the number of remaining cells). -/
def boxTraceFrom (b : Box) : Nat → IntVect → List IntVect
  | 0, _ => []
  | fuel + 1, p =>
    if b.containsIV p then p :: boxTraceFrom b fuel (boxIterInc b p) else []

/-- The positions visited by `for (BoxIterator it(b); it.ok(); ++it)`. -/
def boxTrace (b : Box) : List IntVect := boxTraceFrom b (b.cells.length + 1) b.lo

/-- The cells of `b` that a Fortran-order sweep has not yet visited when it
stands at position `p` (including `p` itself). -/
def tailCells (b : Box) (p : IntVect) : List IntVect :=
  ((axisRange p.x b.hi.x).map fun cx => (⟨cx, p.y, p.z⟩ : IntVect))
    ++ ((axisRange (p.y + 1) b.hi.y).flatMap fun cy =>
          (axisRange b.lo.x b.hi.x).map fun cx => (⟨cx, cy, p.z⟩ : IntVect))
    ++ ((axisRange (p.z + 1) b.hi.z).flatMap fun cz =>
          (axisRange b.lo.y b.hi.y).flatMap fun cy =>
            (axisRange b.lo.x b.hi.x).map fun cx => (⟨cx, cy, cz⟩ : IntVect))

/-- Translated from `DisjointBoxLayout.H`: a `(box, owner process)` pair. -/
structure BoxEntry where
  box : Box
  proc : Int
deriving DecidableEq, Repr, Inhabited

/-- Translated from `DisjointBoxLayout.H` (the data members of
`DisjointBoxLayout`).  The static process data `s_numProc` / `s_procID`
(set once by `initMPI`) is carried explicitly in the record. -/
structure DBL where
  domain : Box
  stride : IntVect
  numBox : IntVect
  size : Int
  boxes : List BoxEntry
  localIdxBeg : Int
  numLocalBox : Int
  numProc : Int
  procID : Int
deriving DecidableEq, Repr

/-- Translated from `DisjointBoxLayout.cpp` (`define`, box-placement loop
body): shift `currBox` by `maxBoxSize` in x; if that leaves the domain, shift
y and reset x; if still outside, shift z and reset y. -/
def defineStepY (domain : Box) (M numBox : IntVect) (b : Box) : Box :=
  if domain.containsBox b then b
  else (b.shiftDir M.y 1).shiftDir (-(M.x * numBox.x)) 0

/-- Translated from `DisjointBoxLayout.cpp` (`define`, box-placement loop
body, second containment test): if the box is still outside the domain,
shift z and reset y. -/
def defineStepZ (domain : Box) (M numBox : IntVect) (b : Box) : Box :=
  if domain.containsBox b then b
  else (b.shiftDir M.z 2).shiftDir (-(M.y * numBox.y)) 1

/-- One pass of the box-placement loop body of `DisjointBoxLayout::define`:
x-shift, then the two containment-correction stages. -/
def defineStep (domain : Box) (M numBox : IntVect) (b : Box) : Box :=
  defineStepZ domain M numBox (defineStepY domain M numBox (b.shiftDir M.x 0))

/-- The `count` boxes laid out by the placement loop of
`DisjointBoxLayout::define`, starting from `currBox = b`. -/
def buildBoxes (domain : Box) (M numBox : IntVect) : Nat → Box → List Box
  | 0, _ => []
  | n + 1, b => b :: buildBoxes domain M numBox n (defineStep domain M numBox b)

/-- Translated from `DisjointBoxLayout.cpp` (`DisjointBoxLayout::define`).
The two `CH_assert` checks (boxes fit evenly into the domain; boxes fit
evenly onto the processes) are modelled as guards returning `none`; this is
the spec's fatal `UnevenPartition` error.  The owner of linear index `k` is
`k / boxPerProc` (outer loop over processes, inner loop over
`boxPerProc` boxes). -/
def dblDefine (numProc procID : Int) (domain : Box) (maxBoxSize : IntVect) :
    Option DBL :=
  let domainSize := (domain.hi.sub domain.lo).add IntVect.unit
  let numBox := domainSize.divV maxBoxSize
  if numBox.mulV maxBoxSize = domainSize then
    let stride : IntVect := ⟨1, numBox.x, numBox.x * numBox.y⟩
    let size := stride.z * numBox.z
    let boxPerProc := size.tdiv numProc
    if size = boxPerProc * numProc then
      let initBox : Box := ⟨domain.lo, (domain.lo.add maxBoxSize).sub IntVect.unit⟩
      some {
        domain := domain
        stride := stride
        numBox := numBox
        size := size
        boxes := (buildBoxes domain maxBoxSize numBox size.toNat initBox).mapIdx
          (fun k bx => ⟨bx, (k : Int).tdiv boxPerProc⟩)
        localIdxBeg := procID * boxPerProc
        numLocalBox := boxPerProc
        numProc := numProc
        procID := procID }
    else none
  else none

/-- The k-th sub-box of the partition lattice: `lo = domain.lo + v·M`,
`hi = lo + M − 1` (spec section 4.3). -/
def latticeBox (domainLo M v : IntVect) : Box :=
  ⟨domainLo.add (v.mulV M), (domainLo.add ((v.addScalar 1).mulV M)).sub IntVect.unit⟩

/-- Fortran-order successor of a lattice position (the effect of one
`defineStep` on the lattice position of `currBox`). -/
def fsucc (n v : IntVect) : IntVect :=
  if v.x + 1 < n.x then ⟨v.x + 1, v.y, v.z⟩
  else if v.y + 1 < n.y then ⟨0, v.y + 1, v.z⟩
  else ⟨0, 0, v.z + 1⟩

/-- Iterated Fortran-order successor starting at the origin. -/
def fsuccIter (n : IntVect) : Nat → IntVect
  | 0 => IntVect.zero
  | k + 1 => fsucc n (fsuccIter n k)

/-- Linear (Fortran-order) index of a lattice position. -/
def encodeZ (n v : IntVect) : Int := v.x + n.x * (v.y + n.y * v.z)

/-- A lattice position lies inside the `numBox` lattice. -/
def inRange (n v : IntVect) : Prop :=
  0 ≤ v.x ∧ v.x < n.x ∧ 0 ≤ v.y ∧ v.y < n.y ∧ 0 ≤ v.z ∧ v.z < n.z

instance (n v : IntVect) : Decidable (inRange n v) := by
  unfold inRange; exact inferInstance

/-- A concrete layout used by witnesses: domain `[0,3]^3`, `maxBoxSize`
`(2,2,2)`, 2 processes, this process is rank 0 (a 2x2x2 lattice of 8 boxes,
4 per process). -/
def dblW : DBL :=
  (dblDefine 2 0 (Box.mk ⟨0, 0, 0⟩ ⟨3, 3, 3⟩) ⟨2, 2, 2⟩).get (by decide)

/-- Translated from `BoxIndex.H`: a `(globalIndex, localIndex)` pair naming
one box. -/
structure BoxIndex where
  globalIndex : Int
  localIndex : Int
deriving DecidableEq, Repr

/-- Translated from `DisjointBoxLayout.H` (`operator[](BoxIndex)` /
`operator[](LayoutIterator)`): the box of the table entry at a global linear
index. -/
def DBL.boxAt (dbl : DBL) (g : Int) : Box := (dbl.boxes.getD g.toNat default).box

/-- Translated from `DisjointBoxLayout.H` (`proc`): the owner process of the
table entry at a global linear index. -/
def DBL.procAt (dbl : DBL) (g : Int) : Int := (dbl.boxes.getD g.toNat default).proc

/-- Translated from `LayoutIterator.H` (`LayoutIterator::operator*`): yields
`BoxIndex(m_current, m_current - localIdxBegin)`. -/
def layoutIterStar (dbl : DBL) (current : Int) : BoxIndex :=
  ⟨current, current - dbl.localIdxBeg⟩

/-- The BoxIndex values yielded by a full LayoutIterator sweep: `m_current`
runs from 0 while `ok()` holds (`m_current < m_size` with `m_size =
dbl.size`). -/
def layoutIterTrace (dbl : DBL) : List BoxIndex :=
  (List.range dbl.size.toNat).map (fun k => layoutIterStar dbl (k : Int))

/-- The `m_current` values visited by a DataIterator sweep: from
`localIdxBegin()` while `m_current < localIdxEnd()`. -/
def dataIterTrace (dbl : DBL) : List Int :=
  (List.range dbl.numLocalBox.toNat).map
    (fun k : Nat => dbl.localIdxBeg + (k : Int))

/-- Translated from `DisjointBoxLayout.H` (`linearNbrOffset`): dot product of
an offset with the stride vector. -/
def DBL.linearNbrOffset (dbl : DBL) (off : IntVect) : Int :=
  off.x * dbl.stride.x + off.y * dbl.stride.y + off.z * dbl.stride.z

/-- Translated from the `D_INVTERM` decode block shared by the
`NeighborIterator` and `PeriodicIterator` constructors: recover the lattice
position of a global linear index from the strides. -/
def ivBaseOf (dbl : DBL) (g : Int) : IntVect :=
  ⟨g - dbl.stride.z * (g.tdiv dbl.stride.z)
     - dbl.stride.y * ((g - dbl.stride.z * (g.tdiv dbl.stride.z)).tdiv dbl.stride.y),
   (g - dbl.stride.z * (g.tdiv dbl.stride.z)).tdiv dbl.stride.y,
   g.tdiv dbl.stride.z⟩

/-- Translated from `LayoutIterator.H`: the skip test of the neighbor
iterators, `(1 << m_nbrOffset->norm1()) & m_trim` with
`m_trim = a_trim | TrimCenter`. -/
def trimmedB (trim : Nat) (off : IntVect) : Bool :=
  (1 <<< off.norm1) &&& (trim ||| 1) != 0

/-- The yield sequence of a skip-loop iterator over the cells of `b`: like
`boxTraceFrom` but dropping positions that fail `keep` (the constructors and
`operator++` of `NeighborIterator` / `PeriodicIterator` advance the inner
`BoxIterator` past invalid offsets before each yield). -/
def filtTraceFrom (b : Box) (keep : IntVect → Bool) : Nat → IntVect → List IntVect
  | 0, _ => []
  | fuel + 1, p =>
    if b.containsIV p then
      (if keep p then p :: filtTraceFrom b keep fuel (boxIterInc b p)
       else filtTraceFrom b keep fuel (boxIterInc b p))
    else []

/-- The lattice-index domain box of the `NeighborIterator` / `PeriodicIterator`
constructors (`ivDomain`), already shifted so that the base box sits at the
origin. -/
def shiftedLatticeDomain (dbl : DBL) (g : Int) : Box :=
  (Box.mk IntVect.zero (dbl.numBox.sub IntVect.unit)).shift
    (IntVect.neg (ivBaseOf dbl g))

/-- The stencil of candidate neighbour offsets, `Box(-Unit, Unit)`. -/
def stencilBox : Box := Box.mk (IntVect.neg IntVect.unit) IntVect.unit

/-- The cropped offset box of `NeighborIterator` (`a_nbr &= ivDomain`). -/
def nbrCropBox (dbl : DBL) (g : Int) : Box :=
  stencilBox.inter (shiftedLatticeDomain dbl g)

/-- The offsets yielded by `NeighborIterator(lit, trim)` at the layout
position with global index `g`. -/
def neighborOffsets (dbl : DBL) (g : Int) (trim : Nat) : List IntVect :=
  filtTraceFrom (nbrCropBox dbl g) (fun off => ! trimmedB trim off)
    ((nbrCropBox dbl g).cells.length + 1) (nbrCropBox dbl g).lo

/-- The `(nbrDir, BoxIndex)` pairs yielded by `NeighborIterator(lit, trim)`:
`m_current = m_base + linearNbrOffset(offset)`. -/
def neighborTrace (dbl : DBL) (g : Int) (trim : Nat) : List (IntVect × BoxIndex) :=
  (neighborOffsets dbl g trim).map
    (fun off => (off, layoutIterStar dbl (g + dbl.linearNbrOffset off)))

/-- Conditionally grow one direction of a box. -/
def growDirIf (c : Prop) [Decidable c] (b : Box) (r : Int) (d : Nat) : Box :=
  if c then b.growDir r d else b

/-- Translated from the direction loops of `PeriodicIterator`'s constructor
and `Copier::defineExchangeDBL`: grow by `r` in every direction whose bit is
set in the periodic mask. -/
def growPeriodicDirs (periodic : Nat) (r : Int) (b : Box) : Box :=
  growDirIf (periodic &&& (1 <<< 2) ≠ 0)
    (growDirIf (periodic &&& (1 <<< 1) ≠ 0)
      (growDirIf (periodic &&& (1 <<< 0) ≠ 0) b r 0) r 1) r 2

/-- `m_ivPeriodicDomain` of `PeriodicIterator`: the shifted lattice domain
grown by 1 in the periodic directions. -/
def perPeriodicDomain (dbl : DBL) (g : Int) (periodic : Nat) : Box :=
  growPeriodicDirs periodic 1 (shiftedLatticeDomain dbl g)

/-- `m_ivPeriodicDomainSide[dir][0]` of `PeriodicIterator`: the one-deep
strip just below the low lattice face along `dir` (default empty box when
`dir` is not periodic). -/
def perSideLow (dbl : DBL) (g : Int) (periodic : Nat) (d : Nat) : Box :=
  if periodic &&& (1 <<< d) ≠ 0 then
    ((perPeriodicDomain dbl g periodic).growDir (-1) d).adjBox 1 d (-1)
  else default

/-- `m_ivPeriodicDomainSide[dir][1]` of `PeriodicIterator`: the one-deep
strip just above the high lattice face along `dir`. -/
def perSideHigh (dbl : DBL) (g : Int) (periodic : Nat) (d : Nat) : Box :=
  if periodic &&& (1 <<< d) ≠ 0 then
    ((perPeriodicDomain dbl g periodic).growDir (-1) d).adjBox 1 d 1
  else default

/-- The cropped offset box of `PeriodicIterator`: the stencil intersected
with the periodic domain, emptied when it lies entirely inside the lattice
domain (not near a periodic boundary). -/
def perNbrBox (dbl : DBL) (g : Int) (periodic : Nat) : Box :=
  let nbr := stencilBox.inter (perPeriodicDomain dbl g periodic)
  if (shiftedLatticeDomain dbl g).containsBox nbr then Box.emptyBox else nbr

/-- The skip test of `PeriodicIterator::setCurrent`: trimmed codimensions and
offsets inside the lattice domain are rejected. -/
def perKeep (dbl : DBL) (g : Int) (trim : Nat) (off : IntVect) : Bool :=
  ! trimmedB trim off && ! decide ((shiftedLatticeDomain dbl g).containsIV off)

/-- The raw (outward) offsets yielded by
`PeriodicIterator(lit, trim, periodic)` at layout position `g`. -/
def periodicOffsets (dbl : DBL) (g : Int) (trim : Nat) (periodic : Nat) :
    List IntVect :=
  filtTraceFrom (perNbrBox dbl g periodic) (perKeep dbl g trim)
    ((perNbrBox dbl g periodic).cells.length + 1) (perNbrBox dbl g periodic).lo

/-- One component of the periodic offset adjustment of
`PeriodicIterator::setCurrent`: add the lattice extent when the tested point
lies in the low side strip, subtract it when in the high side strip. -/
def perAdjustComp (low high : Box) (bit : Prop) [Decidable bit] (nbr : IntVect)
    (dd c : Int) : Int :=
  let c1 := if bit ∧ low.containsIV nbr then c + dd else c
  if bit ∧ high.containsIV nbr then c1 - dd else c1

/-- Translated from `PeriodicIterator::setCurrent`: wrap the offset by the
lattice extents.  The tested point is `m_ivBase + offset` where the member
`m_ivBase` still holds its default zero value: the constructor declares a
local `IntVect m_ivBase` that shadows the member, so the member is never
assigned.  (In the shifted frame of the side boxes, testing the bare offset
is the correct behaviour.) -/
def perAdjust (dbl : DBL) (g : Int) (periodic : Nat) (off : IntVect) : IntVect :=
  let nbr := IntVect.zero.add off
  ⟨perAdjustComp (perSideLow dbl g periodic 0) (perSideHigh dbl g periodic 0)
      (periodic &&& (1 <<< 0) ≠ 0) nbr dbl.numBox.x off.x,
   perAdjustComp (perSideLow dbl g periodic 1) (perSideHigh dbl g periodic 1)
      (periodic &&& (1 <<< 1) ≠ 0) nbr dbl.numBox.y off.y,
   perAdjustComp (perSideLow dbl g periodic 2) (perSideHigh dbl g periodic 2)
      (periodic &&& (1 <<< 2) ≠ 0) nbr dbl.numBox.z off.z⟩

/-- The `(nbrDir, BoxIndex)` pairs yielded by
`PeriodicIterator(lit, trim, periodic)`:
`m_current = m_base + linearNbrOffset(adjusted offset)` while `nbrDir()`
returns the raw outward offset. -/
def periodicTrace (dbl : DBL) (g : Int) (trim : Nat) (periodic : Nat) :
    List (IntVect × BoxIndex) :=
  (periodicOffsets dbl g trim periodic).map
    (fun off => (off,
      layoutIterStar dbl (g + dbl.linearNbrOffset (perAdjust dbl g periodic off))))

/-- The lattice position after periodic wrap-around: a coordinate just below
the lattice comes back in at the top, one just above comes back in at the
bottom (only in periodic directions). -/
def wrapPos (n : IntVect) (periodic : Nat) (w : IntVect) : IntVect :=
  ⟨if periodic &&& (1 <<< 0) ≠ 0 ∧ w.x = -1 then w.x + n.x
   else if periodic &&& (1 <<< 0) ≠ 0 ∧ w.x = n.x then w.x - n.x else w.x,
   if periodic &&& (1 <<< 1) ≠ 0 ∧ w.y = -1 then w.y + n.y
   else if periodic &&& (1 <<< 1) ≠ 0 ∧ w.y = n.y then w.y - n.y else w.y,
   if periodic &&& (1 <<< 2) ≠ 0 ∧ w.z = -1 then w.z + n.z
   else if periodic &&& (1 <<< 2) ≠ 0 ∧ w.z = n.z then w.z - n.z else w.z⟩

/-- A concrete layout with interior boxes, used by witnesses: domain
`[0,5]^3`, `maxBoxSize` `(2,2,2)`, 3 processes, rank 0 (a 3x3x3 lattice of
27 boxes, 9 per process). -/
def dblW3 : DBL :=
  (dblDefine 3 0 (Box.mk ⟨0, 0, 0⟩ ⟨5, 5, 5⟩) ⟨2, 2, 2⟩).get (by decide)

/-- The lattice positions reachable by the periodic stencil: within the
lattice grown by one in each direction enabled in the periodic mask. -/
def inGrownRange (n : IntVect) (periodic : Nat) (w : IntVect) : Prop :=
  (if periodic &&& (1 <<< 0) ≠ 0 then -1 ≤ w.x ∧ w.x ≤ n.x
   else 0 ≤ w.x ∧ w.x ≤ n.x - 1) ∧
  (if periodic &&& (1 <<< 1) ≠ 0 then -1 ≤ w.y ∧ w.y ≤ n.y
   else 0 ≤ w.y ∧ w.y ≤ n.y - 1) ∧
  (if periodic &&& (1 <<< 2) ≠ 0 then -1 ≤ w.z ∧ w.z ≤ n.z
   else 0 ≤ w.z ∧ w.z ≤ n.z - 1)

instance (n : IntVect) (periodic : Nat) (w : IntVect) :
    Decidable (inGrownRange n periodic w) := by
  unfold inGrownRange; exact inferInstance

/-- Translated from `Copier.H` (`Motion2Way`): the data members describing
one two-way motion of the plan (the message buffers and completion flags
belong to the exchange engines and are modelled there). -/
structure Motion2Way where
  bidxLocal : BoxIndex
  bidxRemote : BoxIndex
  regionRecv : Box
  regionSend : Box
  regionSendRemote : Box
  localProcID : Int
  remoteProcID : Int
  tagSend : Int
  tagRecv : Int
  sendDir : IntVect
deriving DecidableEq, Repr

/-- Translated from `Copier.H` (`Motion2Way::uniqueTag`). -/
def uniqueTag (bidxSend : BoxIndex) (sendDir : IntVect) : Int :=
  27 * bidxSend.globalIndex
    + ((sendDir.x + 1) + 3 * (sendDir.y + 1) + 9 * (sendDir.z + 1))

/-- Translated from `Copier.H` (`Motion2Way::Motion2Way`): the field
assignments of the constructor. -/
def mkMotion2Way (dbl : DBL) (bl br : BoxIndex)
    (rRecv rSend rSendRemote : Box) (sendDir : IntVect) : Motion2Way where
  bidxLocal := bl
  bidxRemote := br
  regionRecv := rRecv
  regionSend := rSend
  regionSendRemote := rSendRemote
  localProcID := dbl.procAt bl.globalIndex
  remoteProcID := dbl.procAt br.globalIndex
  tagSend := uniqueTag bl sendDir
  tagRecv := uniqueTag br sendDir.neg
  sendDir := sendDir

/-- Translated from `Copier.H` (`Motion2Way::isLocal`). -/
def Motion2Way.isLocal (m : Motion2Way) : Bool :=
  m.localProcID == m.remoteProcID

/-- Translated from `Copier.H` (`Copier::defineExchangeDBL`, interior
branch): the motion item for the NeighborIterator yield
`pr = (nbrDir, bidxRemote)`.  `regionRecv = grow(L, nghost) ∩ R`; with
messaging (`mpi`), `regionSend = L ∩ grow(R, nghost)`, otherwise a
default-constructed (empty) box; `regionSendRemote = regionRecv`. -/
def motionOfNbr (dbl : DBL) (mpi : Bool) (nghost : Int) (bl : BoxIndex)
    (pr : IntVect × BoxIndex) : Motion2Way :=
  let localBox := dbl.boxAt bl.globalIndex
  let remoteBox := dbl.boxAt pr.2.globalIndex
  let regionRecv := (localBox.grow nghost).inter remoteBox
  let regionSend :=
    if mpi then localBox.inter (remoteBox.grow nghost) else Box.emptyBox
  mkMotion2Way dbl bl pr.2 regionRecv regionSend regionRecv pr.1

/-- The interior motion items emitted for local box `bl`. -/
def interiorMotions (dbl : DBL) (mpi : Bool) (nghost : Int) (trim : Nat)
    (bl : BoxIndex) : List Motion2Way :=
  (neighborTrace dbl bl.globalIndex trim).map (motionOfNbr dbl mpi nghost bl)

/-- Translated from `Copier.H` (`Copier::defineExchangeDBL`, periodic
branch): the remote box is first shifted by
`shiftBy = (L.lo − R.lo) + nbrDir·dims(L)` to its periodic image outside the
domain; `regionSendRemote` is `regionRecv` shifted back by `−shiftBy`. -/
def motionOfPer (dbl : DBL) (mpi : Bool) (nghost : Int) (bl : BoxIndex)
    (pr : IntVect × BoxIndex) : Motion2Way :=
  let localBox := dbl.boxAt bl.globalIndex
  let remoteBox0 := dbl.boxAt pr.2.globalIndex
  let shiftBy := (localBox.lo.sub remoteBox0.lo).add
    (pr.1.mulV localBox.dimensions)
  let remoteBox := remoteBox0.shift shiftBy
  let regionRecv := (localBox.grow nghost).inter remoteBox
  let regionSend :=
    if mpi then localBox.inter (remoteBox.grow nghost) else Box.emptyBox
  mkMotion2Way dbl bl pr.2 regionRecv regionSend
    (regionRecv.shift shiftBy.neg) pr.1

/-- The periodic motion items emitted for local box `bl`. -/
def periodicMotions (dbl : DBL) (mpi : Bool) (nghost : Int)
    (trim periodic : Nat) (bl : BoxIndex) : List Motion2Way :=
  (periodicTrace dbl bl.globalIndex trim periodic).map
    (motionOfPer dbl mpi nghost bl)

/-- `periodicTestDomain` of `Copier::defineExchangeDBL`: the problem domain
shrunk by one in each periodic direction. -/
def periodicTestDomain (dbl : DBL) (periodic : Nat) : Box :=
  growPeriodicDirs periodic (-1) dbl.domain

/-- The motion items emitted for the local box with global index `g`:
interior neighbours always, then periodic neighbours when the box is not
contained in `periodicTestDomain` (it touches a periodic face). -/
def boxMotions (dbl : DBL) (mpi : Bool) (nghost : Int) (trim periodic : Nat)
    (g : Int) : List Motion2Way :=
  interiorMotions dbl mpi nghost trim (layoutIterStar dbl g) ++
    (if (periodicTestDomain dbl periodic).containsBox (dbl.boxAt g) then []
     else periodicMotions dbl mpi nghost trim periodic (layoutIterStar dbl g))

/-- Translated from `Copier.H` (`Copier::defineExchangeDBL`): the full motion
plan, one DataIterator sweep over the locally owned boxes appending interior
and periodic motion items per box (no items when `nghost = 0`). -/
def copierPlan (dbl : DBL) (mpi : Bool) (nghost : Int) (trim periodic : Nat) :
    List Motion2Way :=
  if 0 < nghost then
    (dataIterTrace dbl).flatMap (boxMotions dbl mpi nghost trim periodic)
  else []

/-- A concrete motion item (the first entry of the `dblW` exchange plan with
messaging and one ghost cell), used by the C1 witness. -/
def c1Motion : Motion2Way :=
  Motion2Way.mk ⟨0, 0⟩ ⟨1, 1⟩ (Box.mk ⟨2, 0, 0⟩ ⟨2, 1, 1⟩)
    (Box.mk ⟨1, 0, 0⟩ ⟨1, 1, 1⟩) (Box.mk ⟨2, 0, 0⟩ ⟨2, 1, 1⟩)
    0 0 14 39 ⟨1, 0, 0⟩

/-- Translated from `Copier.H` (`Motion2Way::Motion2Way()`, the default
constructor): default box indices `(-1, -1)`, empty regions, invalid process
ids and tags, null buffers; `m_sendDir` is left default-constructed
(zero). -/
def motionDefault : Motion2Way :=
  Motion2Way.mk ⟨-1, -1⟩ ⟨-1, -1⟩ Box.emptyBox Box.emptyBox Box.emptyBox
    (-1) (-1) (-1) (-1) IntVect.zero

/-- The receive buffer allocated by the `Motion2Way` constructor: only
non-local motions call `malloc` (`if (!isLocal())`); `none` models the null
pointer of a local motion. -/
def recvBufferOf (m : Motion2Way) : Option Unit :=
  if m.isLocal then none else some ()

/-- Translated from `Copier.H` (`defineExchangeDBL`, MPI epilogue): the
motion-item index stored for each receive request, in plan order over the
non-local items (`m_midxForReq[cRecvReq++] = i`).
`Copier::motionItemIndex(ridx)` returns `m_midxForReq[ridx/2]`. -/
def copierMidxForReq (plan : List Motion2Way) : List Nat :=
  (List.range plan.length).filter
    (fun i => ! (plan.getD i motionDefault).isLocal)

/-- `m_numReq`: two MPI requests per non-local motion item. -/
def copierNumReq (plan : List Motion2Way) : Nat :=
  2 * (plan.filter (fun m => ! m.isLocal)).length

/-- The receive-unpack drain of `LevelData::exchange` (`MPI_Waitany` path,
the default since `USE_MPIWAITALL` is not defined), processing completed
request indices in the order `order`: an odd request index is a receive; the
motion item is `a_copier[motionItemIndex(ridx)]` and is unpacked only when
`!motion.isLocal()`.  The result is the sequence of motion-item indices
whose receive buffers are read; reading a null buffer is the error case. -/
def exchangeStep (plan : List Motion2Way) (acc : Except String (List Nat))
    (ridx : Nat) : Except String (List Nat) :=
  match acc with
  | .error e => .error e
  | .ok l =>
    if ridx % 2 = 1 then
      let i := (copierMidxForReq plan).getD (ridx / 2) 0
      let m := plan.getD i motionDefault
      if m.isLocal then .ok l
      else
        match recvBufferOf m with
        | none => .error "linearIn from null recvBuffer"
        | some _ => .ok (l ++ [i])
    else .ok l

def exchangeDrain (plan : List Motion2Way) (order : List Nat) :
    Except String (List Nat) :=
  order.foldl (exchangeStep plan) (.ok [])

/-- The receive-unpack drain of `LevelData::exchangeEnd` (`MPI_Waitany`
path): the motion item is `a_copier[ridx/2]` and there is no locality
guard before `linearIn` reads its receive buffer. -/
def exchangeEndStep (plan : List Motion2Way) (acc : Except String (List Nat))
    (ridx : Nat) : Except String (List Nat) :=
  match acc with
  | .error e => .error e
  | .ok l =>
    if ridx % 2 = 1 then
      let m := plan.getD (ridx / 2) motionDefault
      match recvBufferOf m with
      | none => .error "linearIn from null recvBuffer"
      | some _ => .ok (l ++ [ridx / 2])
    else .ok l

def exchangeEndDrain (plan : List Motion2Way) (order : List Nat) :
    Except String (List Nat) :=
  order.foldl (exchangeEndStep plan) (.ok [])

/-- The failing layout for C5: domain `[0,7]x[0,1]x[0,1]`, `maxBoxSize`
`(2,2,2)` (a 4x1x1 lattice), 2 processes, rank 0.  Rank 0 owns boxes 0 and
1; its plan is two local motions followed by one remote motion. -/
def dblC5 : DBL :=
  (dblDefine 2 0 (Box.mk ⟨0, 0, 0⟩ ⟨7, 1, 1⟩) ⟨2, 2, 2⟩).get (by decide)

theorem mem_axisRange {lo hi a : Int} : a ∈ axisRange lo hi ↔ lo ≤ a ∧ a ≤ hi := by
  unfold axisRange
  simp only [List.mem_map, List.mem_range]
  constructor
  · rintro ⟨i, hik, rfl⟩
    omega
  · rintro ⟨h1, h2⟩
    exact ⟨(a - lo).toNat, by omega, by omega⟩

theorem axisRange_nil {lo hi : Int} (h : hi < lo) : axisRange lo hi = [] := by
  unfold axisRange
  have : (hi + 1 - lo).toNat = 0 := by omega
  simp [this]

theorem axisRange_cons {lo hi : Int} (h : lo ≤ hi) :
    axisRange lo hi = lo :: axisRange (lo + 1) hi := by
  unfold axisRange
  have h1 : (hi + 1 - lo).toNat = (hi + 1 - (lo + 1)).toNat + 1 := by omega
  rw [h1, List.range_succ_eq_map, List.map_cons, List.map_map]
  refine congrArg₂ (· :: ·) (by simp) ?_
  refine List.map_congr_left ?_
  intro i _
  simp only [Function.comp_apply]
  push_cast
  ring

theorem axisRange_nodup (lo hi : Int) : (axisRange lo hi).Nodup := by
  unfold axisRange
  exact (List.nodup_range _).map (fun a b h => by omega)

theorem axisRange_length (lo hi : Int) :
    (axisRange lo hi).length = (hi + 1 - lo).toNat := by
  unfold axisRange
  simp

theorem nodup_flatMap_of {α β : Type} {l : List α} {f : α → List β}
    (hl : l.Nodup) (hf : ∀ a ∈ l, (f a).Nodup)
    (hd : ∀ a ∈ l, ∀ b ∈ l, a ≠ b → ∀ x ∈ f a, x ∉ f b) :
    (l.flatMap f).Nodup := by
  induction l with
  | nil => simp
  | cons a l ih =>
    rw [List.flatMap_cons, List.nodup_append]
    refine ⟨hf a (by simp), ih hl.of_cons (fun c hc => hf c (by simp [hc]))
      (fun c hc d hd2 hne => hd c (by simp [hc]) d (by simp [hd2]) hne), ?_⟩
    intro x hx hx2
    rcases List.mem_flatMap.mp hx2 with ⟨c, hc, hxc⟩
    have hac : a ≠ c := by
      rintro rfl
      exact (List.nodup_cons.mp hl).1 hc
    exact hd a (by simp) c (by simp [hc]) hac x hx hxc

theorem length_flatMap_const {α β : Type} {l : List α} {f : α → List β} {c : Nat}
    (h : ∀ a ∈ l, (f a).length = c) : (l.flatMap f).length = l.length * c := by
  induction l with
  | nil => simp
  | cons a l ih =>
    rw [List.flatMap_cons, List.length_append, h a (by simp),
      ih (fun b hb => h b (by simp [hb])), List.length_cons]
    ring

theorem Box.mem_cells {b : Box} {p : IntVect} : p ∈ b.cells ↔ b.containsIV p := by
  unfold Box.cells Box.containsIV IntVect.le
  simp only [List.mem_flatMap, List.mem_map, mem_axisRange]
  constructor
  · rintro ⟨cz, ⟨hz1, hz2⟩, cy, ⟨hy1, hy2⟩, cx, ⟨hx1, hx2⟩, rfl⟩
    exact ⟨⟨hx1, hy1, hz1⟩, hx2, hy2, hz2⟩
  · rintro ⟨⟨hx1, hy1, hz1⟩, hx2, hy2, hz2⟩
    exact ⟨p.z, ⟨hz1, hz2⟩, p.y, ⟨hy1, hy2⟩, p.x, ⟨hx1, hx2⟩, rfl⟩

theorem Box.cells_nodup (b : Box) : b.cells.Nodup := by
  unfold Box.cells
  refine nodup_flatMap_of (axisRange_nodup _ _) (fun cz _ => ?_) ?_
  · refine nodup_flatMap_of (axisRange_nodup _ _) (fun cy _ => ?_) ?_
    · refine (axisRange_nodup _ _).map ?_
      intro a b h
      simpa using congrArg IntVect.x h
    · intro cy _ cy2 _ hne v hv hv2
      simp only [List.mem_map] at hv hv2
      rcases hv with ⟨cx, _, rfl⟩
      rcases hv2 with ⟨cx2, _, h⟩
      have h2 : cy2 = cy := by simpa using congrArg IntVect.y h
      exact hne h2.symm
  · intro cz _ cz2 _ hne v hv hv2
    simp only [List.mem_flatMap, List.mem_map] at hv hv2
    rcases hv with ⟨cy, _, cx, _, rfl⟩
    rcases hv2 with ⟨cy2, _, cx2, _, h⟩
    have h2 : cz2 = cz := by simpa using congrArg IntVect.z h
    exact hne h2.symm

theorem Box.cells_length (b : Box) :
    b.cells.length =
      (b.hi.z + 1 - b.lo.z).toNat *
        ((b.hi.y + 1 - b.lo.y).toNat * (b.hi.x + 1 - b.lo.x).toNat) := by
  unfold Box.cells
  rw [length_flatMap_const (c := (b.hi.y + 1 - b.lo.y).toNat *
        (b.hi.x + 1 - b.lo.x).toNat) ?_, axisRange_length]
  intro cy _
  rw [length_flatMap_const (c := (b.hi.x + 1 - b.lo.x).toNat) ?_, axisRange_length]
  intro cx _
  rw [List.length_map, axisRange_length]

theorem Box.size_toNat_eq_cells_length {b : Box} (hb : ¬ b.isEmpty) :
    b.size.toNat = b.cells.length := by
  unfold Box.isEmpty at hb
  push_neg at hb
  obtain ⟨h1, h2, h3⟩ := hb
  rw [Box.cells_length]
  unfold Box.size Box.dimensions IntVect.product IntVect.sub IntVect.addScalar
  simp only
  have ex : b.hi.x - b.lo.x + 1 = ((b.hi.x + 1 - b.lo.x).toNat : Int) := by omega
  have ey : b.hi.y - b.lo.y + 1 = ((b.hi.y + 1 - b.lo.y).toNat : Int) := by omega
  have ez : b.hi.z - b.lo.z + 1 = ((b.hi.z + 1 - b.lo.z).toNat : Int) := by omega
  rw [ex, ey, ez, ← Nat.cast_mul, ← Nat.cast_mul, Int.toNat_natCast]
  ring

theorem boxTraceFrom_nil {b : Box} {fuel : Nat} {p : IntVect}
    (h : ¬ b.containsIV p) : boxTraceFrom b fuel p = [] := by
  cases fuel with
  | zero => rfl
  | succ n => simp [boxTraceFrom, h]

theorem boxTraceFrom_eq_tailCells (b : Box) :
    ∀ (fuel : Nat) (p : IntVect), b.containsIV p → (tailCells b p).length ≤ fuel →
      boxTraceFrom b fuel p = tailCells b p := by
  intro fuel
  induction fuel with
  | zero =>
    intro p hp hlen
    exfalso
    obtain ⟨⟨hlx, hly, hlz⟩, hhx, hhy, hhz⟩ := hp
    unfold tailCells at hlen
    rw [List.length_append, List.length_append, List.length_map,
      axisRange_length] at hlen
    omega
  | succ fuel ih =>
    intro p hp hlen
    obtain ⟨⟨hlx, hly, hlz⟩, hhx, hhy, hhz⟩ := hp
    have hp2 : b.containsIV p := ⟨⟨hlx, hly, hlz⟩, hhx, hhy, hhz⟩
    rw [show boxTraceFrom b (fuel + 1) p
          = if b.containsIV p then p :: boxTraceFrom b fuel (boxIterInc b p)
            else [] from rfl, if_pos hp2]
    by_cases hx : p.x < b.hi.x
    · -- interior of an x-row
      have hinc : boxIterInc b p = ⟨p.x + 1, p.y, p.z⟩ := by
        unfold boxIterInc
        rw [if_neg (by omega), if_neg (by omega)]
      have htail : tailCells b p = p :: tailCells b ⟨p.x + 1, p.y, p.z⟩ := by
        unfold tailCells
        rw [axisRange_cons (show p.x ≤ b.hi.x by omega)]
        simp [List.cons_append]
      have hq : b.containsIV ⟨p.x + 1, p.y, p.z⟩ := by
        unfold Box.containsIV IntVect.le
        dsimp only
        omega
      rw [htail] at hlen ⊢
      rw [hinc, ih _ hq (by simpa using hlen)]
    · by_cases hy : p.y < b.hi.y
      · -- end of an x-row, advance y
        have hinc : boxIterInc b p = ⟨b.lo.x, p.y + 1, p.z⟩ := by
          unfold boxIterInc
          rw [if_pos (by omega), if_neg (by omega)]
        have hsing : axisRange p.x b.hi.x = [p.x] := by
          rw [axisRange_cons (by omega), axisRange_nil (by omega)]
        have htail : tailCells b p = p :: tailCells b ⟨b.lo.x, p.y + 1, p.z⟩ := by
          unfold tailCells
          rw [hsing, axisRange_cons (show p.y + 1 ≤ b.hi.y by omega)]
          simp [List.cons_append, List.append_assoc]
        have hq : b.containsIV ⟨b.lo.x, p.y + 1, p.z⟩ := by
          unfold Box.containsIV IntVect.le
          dsimp only
          omega
        rw [htail] at hlen ⊢
        rw [hinc, ih _ hq (by simpa using hlen)]
      · by_cases hz : p.z < b.hi.z
        · -- end of an xy-plane, advance z
          have hinc : boxIterInc b p = ⟨b.lo.x, b.lo.y, p.z + 1⟩ := by
            unfold boxIterInc
            rw [if_pos (by omega), if_pos (by omega)]
          have hsing : axisRange p.x b.hi.x = [p.x] := by
            rw [axisRange_cons (by omega), axisRange_nil (by omega)]
          have htail : tailCells b p = p :: tailCells b ⟨b.lo.x, b.lo.y, p.z + 1⟩ := by
            unfold tailCells
            rw [hsing, axisRange_nil (show b.hi.y < p.y + 1 by omega),
              axisRange_cons (show p.z + 1 ≤ b.hi.z by omega),
              axisRange_cons (show b.lo.y ≤ b.hi.y by omega)]
            simp [List.cons_append, List.append_assoc]
          have hq : b.containsIV ⟨b.lo.x, b.lo.y, p.z + 1⟩ := by
            unfold Box.containsIV IntVect.le
            dsimp only
            omega
          rw [htail] at hlen ⊢
          rw [hinc, ih _ hq (by simpa using hlen)]
        · -- the top corner of the box
          have hinc : boxIterInc b p = ⟨b.lo.x, b.lo.y, p.z + 1⟩ := by
            unfold boxIterInc
            rw [if_pos (by omega), if_pos (by omega)]
          have hq : ¬ b.containsIV ⟨b.lo.x, b.lo.y, p.z + 1⟩ := by
            unfold Box.containsIV IntVect.le
            dsimp only
            omega
          have hsing : axisRange p.x b.hi.x = [p.x] := by
            rw [axisRange_cons (by omega), axisRange_nil (by omega)]
          have htail : tailCells b p = [p] := by
            unfold tailCells
            rw [hsing, axisRange_nil (show b.hi.y < p.y + 1 by omega),
              axisRange_nil (show b.hi.z < p.z + 1 by omega)]
            simp
          rw [htail, hinc, boxTraceFrom_nil hq]

theorem tailCells_lo {b : Box} (hb : b.containsIV b.lo) :
    tailCells b b.lo = b.cells := by
  obtain ⟨-, hhx, hhy, hhz⟩ := hb
  unfold tailCells Box.cells
  rw [axisRange_cons (show b.lo.z ≤ b.hi.z from hhz),
    axisRange_cons (show b.lo.y ≤ b.hi.y from hhy)]
  simp [List.cons_append, List.append_assoc]

theorem cells_nil_of_not_lo {b : Box} (hb : ¬ b.containsIV b.lo) :
    b.cells = [] := by
  unfold Box.containsIV IntVect.le at hb
  unfold Box.cells
  by_cases h1 : b.hi.x < b.lo.x
  · simp [axisRange_nil h1]
  · by_cases h2 : b.hi.y < b.lo.y
    · simp [axisRange_nil h2]
    · have h3 : b.hi.z < b.lo.z := by
        by_contra h3
        exact hb ⟨⟨le_refl _, le_refl _, le_refl _⟩, by omega, by omega, by omega⟩
      simp [axisRange_nil h3]

theorem boxTrace_eq_cells (b : Box) : boxTrace b = b.cells := by
  by_cases hb : b.containsIV b.lo
  · have hlo : tailCells b b.lo = b.cells := tailCells_lo hb
    unfold boxTrace
    rw [boxTraceFrom_eq_tailCells b _ _ hb (by rw [hlo]; omega), hlo]
  · unfold boxTrace
    rw [boxTraceFrom_nil hb, cells_nil_of_not_lo hb]

/-- CLAIM C10.  For every non-empty box `b`, the BoxIterator built on `b`
(translated increment `boxIterInc` and validity test `containsIV` from
`BoxIterator.H`) starts at `b.lo` and visits every cell of `b` exactly once,
in Fortran order (component 0 fastest, which is the order of `Box.cells`),
`ok()` becoming false after exactly `size(b)` cells. -/
theorem claimC10_box_iterator_enumerates_cells (b : Box) (hb : ¬ b.isEmpty) :
    boxTrace b = b.cells ∧
    b.cells.Nodup ∧
    (∀ p : IntVect, p ∈ b.cells ↔ b.containsIV p) ∧
    b.cells.length = b.size.toNat ∧
    b.cells.head? = some b.lo := by
  have hlo : b.containsIV b.lo := by
    unfold Box.isEmpty at hb
    unfold Box.containsIV IntVect.le
    omega
  refine ⟨boxTrace_eq_cells b, b.cells_nodup, fun p => Box.mem_cells,
    (Box.size_toNat_eq_cells_length hb).symm, ?_⟩
  rw [← tailCells_lo hlo]
  unfold tailCells
  rw [axisRange_cons (show b.lo.x ≤ b.hi.x from hlo.2.1)]
  simp

/-- Witness for C10 at the concrete box `[0,1]^3`. -/
theorem claimC10_witness :
    ¬ (Box.mk ⟨0, 0, 0⟩ ⟨1, 1, 1⟩).isEmpty ∧
    (boxTrace (Box.mk ⟨0, 0, 0⟩ ⟨1, 1, 1⟩) = (Box.mk ⟨0, 0, 0⟩ ⟨1, 1, 1⟩).cells ∧
      (Box.mk ⟨0, 0, 0⟩ ⟨1, 1, 1⟩).cells.Nodup ∧
      (∀ p : IntVect, p ∈ (Box.mk ⟨0, 0, 0⟩ ⟨1, 1, 1⟩).cells ↔
        (Box.mk ⟨0, 0, 0⟩ ⟨1, 1, 1⟩).containsIV p) ∧
      (Box.mk ⟨0, 0, 0⟩ ⟨1, 1, 1⟩).cells.length = (Box.mk ⟨0, 0, 0⟩ ⟨1, 1, 1⟩).size.toNat ∧
      (Box.mk ⟨0, 0, 0⟩ ⟨1, 1, 1⟩).cells.head? = some ⟨0, 0, 0⟩) :=
  ⟨by decide, claimC10_box_iterator_enumerates_cells _ (by decide)⟩

theorem IntVect.eq_of_comps {v w : IntVect} (h1 : v.x = w.x) (h2 : v.y = w.y)
    (h3 : v.z = w.z) : v = w := by
  cases v; cases w; simp_all

theorem Box.eq_of_lo_hi {b c : Box} (h1 : b.lo = c.lo) (h2 : b.hi = c.hi) :
    b = c := by
  cases b; cases c; simp_all

/-- Explicit componentwise form of `latticeBox`. -/
theorem latticeBox_comp (lo M w : IntVect) :
    latticeBox lo M w =
      Box.mk ⟨lo.x + w.x * M.x, lo.y + w.y * M.y, lo.z + w.z * M.z⟩
        ⟨lo.x + w.x * M.x + M.x - 1, lo.y + w.y * M.y + M.y - 1,
          lo.z + w.z * M.z + M.z - 1⟩ := by
  unfold latticeBox IntVect.add IntVect.mulV IntVect.addScalar IntVect.sub IntVect.unit
  refine Box.eq_of_lo_hi (IntVect.eq_of_comps ?_ ?_ ?_) (IntVect.eq_of_comps ?_ ?_ ?_) <;>
    dsimp only <;> ring

theorem latticeBox_zero (lo M : IntVect) :
    latticeBox lo M IntVect.zero = ⟨lo, (lo.add M).sub IntVect.unit⟩ := by
  rw [latticeBox_comp]
  unfold IntVect.zero IntVect.add IntVect.sub IntVect.unit
  refine Box.eq_of_lo_hi (IntVect.eq_of_comps ?_ ?_ ?_) (IntVect.eq_of_comps ?_ ?_ ?_) <;>
    dsimp only <;> ring

theorem latticeBox_shift_x (lo M v : IntVect) :
    (latticeBox lo M v).shiftDir M.x 0 = latticeBox lo M ⟨v.x + 1, v.y, v.z⟩ := by
  rw [latticeBox_comp, latticeBox_comp]
  unfold Box.shiftDir IntVect.setComp IntVect.comp
  refine Box.eq_of_lo_hi (IntVect.eq_of_comps ?_ ?_ ?_) (IntVect.eq_of_comps ?_ ?_ ?_) <;>
    dsimp only <;> ring

theorem latticeBox_shift_y_reset_x (lo M n : IntVect) (a b c : Int) :
    ((latticeBox lo M ⟨a, b, c⟩).shiftDir M.y 1).shiftDir (-(M.x * n.x)) 0 =
      latticeBox lo M ⟨a - n.x, b + 1, c⟩ := by
  rw [latticeBox_comp, latticeBox_comp]
  unfold Box.shiftDir IntVect.setComp IntVect.comp
  refine Box.eq_of_lo_hi (IntVect.eq_of_comps ?_ ?_ ?_) (IntVect.eq_of_comps ?_ ?_ ?_) <;>
    dsimp only <;> ring

theorem latticeBox_shift_z_reset_y (lo M n : IntVect) (a b c : Int) :
    ((latticeBox lo M ⟨a, b, c⟩).shiftDir M.z 2).shiftDir (-(M.y * n.y)) 1 =
      latticeBox lo M ⟨a, b - n.y, c + 1⟩ := by
  rw [latticeBox_comp, latticeBox_comp]
  unfold Box.shiftDir IntVect.setComp IntVect.comp
  refine Box.eq_of_lo_hi (IntVect.eq_of_comps ?_ ?_ ?_) (IntVect.eq_of_comps ?_ ?_ ?_) <;>
    dsimp only <;> ring

/-- Containment of a lattice sub-box in the problem domain is exactly the
in-range condition on its lattice position. -/
theorem containsBox_latticeBox {domain : Box} {M n : IntVect} (v : IntVect)
    (hM1 : 1 ≤ M.x) (hM2 : 1 ≤ M.y) (hM3 : 1 ≤ M.z)
    (hD1 : domain.hi.x = domain.lo.x + n.x * M.x - 1)
    (hD2 : domain.hi.y = domain.lo.y + n.y * M.y - 1)
    (hD3 : domain.hi.z = domain.lo.z + n.z * M.z - 1) :
    domain.containsBox (latticeBox domain.lo M v) ↔ inRange n v := by
  rw [latticeBox_comp]
  unfold Box.containsBox IntVect.le inRange
  dsimp only
  have e1 : 0 ≤ v.x * M.x ↔ 0 ≤ v.x := mul_nonneg_iff_of_pos_right (by omega)
  have e2 : 0 ≤ v.y * M.y ↔ 0 ≤ v.y := mul_nonneg_iff_of_pos_right (by omega)
  have e3 : 0 ≤ v.z * M.z ↔ 0 ≤ v.z := mul_nonneg_iff_of_pos_right (by omega)
  have f1 : (v.x + 1) * M.x ≤ n.x * M.x ↔ v.x + 1 ≤ n.x := mul_le_mul_right (by omega)
  have f2 : (v.y + 1) * M.y ≤ n.y * M.y ↔ v.y + 1 ≤ n.y := mul_le_mul_right (by omega)
  have f3 : (v.z + 1) * M.z ≤ n.z * M.z ↔ v.z + 1 ≤ n.z := mul_le_mul_right (by omega)
  have g1 : (v.x + 1) * M.x = v.x * M.x + M.x := by ring
  have g2 : (v.y + 1) * M.y = v.y * M.y + M.y := by ring
  have g3 : (v.z + 1) * M.z = v.z * M.z + M.z := by ring
  omega

/-- One pass of the placement loop advances the lattice position by the
Fortran-order successor. -/
theorem defineStep_lattice {domain : Box} {M n : IntVect} (v : IntVect)
    (hM1 : 1 ≤ M.x) (hM2 : 1 ≤ M.y) (hM3 : 1 ≤ M.z)
    (hD1 : domain.hi.x = domain.lo.x + n.x * M.x - 1)
    (hD2 : domain.hi.y = domain.lo.y + n.y * M.y - 1)
    (hD3 : domain.hi.z = domain.lo.z + n.z * M.z - 1)
    (hv : inRange n v) :
    defineStep domain M n (latticeBox domain.lo M v) =
      latticeBox domain.lo M (fsucc n v) := by
  obtain ⟨hv1, hv2, hv3, hv4, hv5, hv6⟩ := hv
  unfold defineStep
  rw [latticeBox_shift_x]
  by_cases hx : v.x + 1 < n.x
  · have hin : inRange n ⟨v.x + 1, v.y, v.z⟩ := by
      unfold inRange; dsimp only; omega
    rw [show defineStepY domain M n (latticeBox domain.lo M ⟨v.x + 1, v.y, v.z⟩)
          = latticeBox domain.lo M ⟨v.x + 1, v.y, v.z⟩ from by
        unfold defineStepY
        rw [if_pos ((containsBox_latticeBox _ hM1 hM2 hM3 hD1 hD2 hD3).mpr hin)]]
    unfold defineStepZ
    rw [if_pos ((containsBox_latticeBox _ hM1 hM2 hM3 hD1 hD2 hD3).mpr hin)]
    unfold fsucc
    rw [if_pos hx]
  · have hxx : v.x + 1 = n.x := by omega
    have hnotin : ¬ inRange n ⟨v.x + 1, v.y, v.z⟩ := by
      unfold inRange; dsimp only; omega
    rw [show defineStepY domain M n (latticeBox domain.lo M ⟨v.x + 1, v.y, v.z⟩)
          = latticeBox domain.lo M ⟨0, v.y + 1, v.z⟩ from by
        unfold defineStepY
        rw [if_neg (fun hc =>
          hnotin ((containsBox_latticeBox _ hM1 hM2 hM3 hD1 hD2 hD3).mp hc)),
          latticeBox_shift_y_reset_x]
        exact congrArg _ (IntVect.eq_of_comps (by dsimp only; omega) rfl rfl)]
    by_cases hy : v.y + 1 < n.y
    · have hin2 : inRange n ⟨0, v.y + 1, v.z⟩ := by
        unfold inRange; dsimp only; omega
      unfold defineStepZ
      rw [if_pos ((containsBox_latticeBox _ hM1 hM2 hM3 hD1 hD2 hD3).mpr hin2)]
      unfold fsucc
      rw [if_neg hx, if_pos hy]
    · have hnotin2 : ¬ inRange n ⟨0, v.y + 1, v.z⟩ := by
        unfold inRange; dsimp only; omega
      unfold defineStepZ
      rw [if_neg (fun hc =>
        hnotin2 ((containsBox_latticeBox _ hM1 hM2 hM3 hD1 hD2 hD3).mp hc)),
        latticeBox_shift_z_reset_y]
      unfold fsucc
      rw [if_neg hx, if_neg hy]
      exact congrArg _ (IntVect.eq_of_comps rfl (by dsimp only; omega) rfl)

/-- Positional-notation cancellation: equal digit-plus-carry decompositions
with digits below the base have equal digits and equal carries. -/
theorem enc_cancel {base A B xa xb : Int} (h1 : 0 ≤ xa) (h2 : xa < base)
    (h3 : 0 ≤ xb) (h4 : xb < base) (h : xa + base * A = xb + base * B) :
    xa = xb ∧ A = B := by
  rcases lt_trichotomy A B with hAB | hAB | hAB
  · exfalso
    have hm : base * (A + 1) ≤ base * B :=
      mul_le_mul_of_nonneg_left (by omega) (by omega)
    have he : base * (A + 1) = base * A + base := by ring
    omega
  · subst hAB
    omega
  · exfalso
    have hm : base * (B + 1) ≤ base * A :=
      mul_le_mul_of_nonneg_left (by omega) (by omega)
    have he : base * (B + 1) = base * B + base := by ring
    omega

theorem encodeZ_inj {n v w : IntVect} (hv : inRange n v) (hw : inRange n w)
    (h : encodeZ n v = encodeZ n w) : v = w := by
  obtain ⟨hv1, hv2, hv3, hv4, hv5, hv6⟩ := hv
  obtain ⟨hw1, hw2, hw3, hw4, hw5, hw6⟩ := hw
  unfold encodeZ at h
  obtain ⟨ex, h2⟩ := enc_cancel hv1 hv2 hw1 hw2 h
  obtain ⟨ey, h3⟩ := enc_cancel hv3 hv4 hw3 hw4 h2
  exact IntVect.eq_of_comps ex ey h3

theorem encodeZ_bounds {n v : IntVect} (hv : inRange n v) :
    0 ≤ encodeZ n v ∧ encodeZ n v < n.x * n.y * n.z := by
  obtain ⟨hv1, hv2, hv3, hv4, hv5, hv6⟩ := hv
  unfold encodeZ
  have a1 : 0 ≤ n.y * v.z := mul_nonneg (by omega) (by omega)
  have a2 : 0 ≤ n.x * (v.y + n.y * v.z) := mul_nonneg (by omega) (by omega)
  have b1 : n.y * v.z ≤ n.y * (n.z - 1) := mul_le_mul_of_nonneg_left (by omega) (by omega)
  have b2 : n.y * (n.z - 1) = n.y * n.z - n.y := by ring
  have c1 : n.x * (v.y + n.y * v.z) ≤ n.x * (n.y * n.z - 1) :=
    mul_le_mul_of_nonneg_left (by omega) (by omega)
  have c2 : n.x * (n.y * n.z - 1) = n.x * n.y * n.z - n.x := by ring
  omega

theorem fsucc_spec {n v : IntVect} (hv : inRange n v)
    (hlt : encodeZ n v + 1 < n.x * n.y * n.z) :
    inRange n (fsucc n v) ∧ encodeZ n (fsucc n v) = encodeZ n v + 1 := by
  obtain ⟨hv1, hv2, hv3, hv4, hv5, hv6⟩ := hv
  unfold fsucc
  by_cases hx : v.x + 1 < n.x
  · rw [if_pos hx]
    refine ⟨⟨by dsimp only; omega, by dsimp only; omega, by dsimp only; omega,
      by dsimp only; omega, by dsimp only; omega, by dsimp only; omega⟩, ?_⟩
    unfold encodeZ
    dsimp only
    ring
  · rw [if_neg hx]
    by_cases hy : v.y + 1 < n.y
    · rw [if_pos hy]
      refine ⟨⟨by dsimp only; omega, by dsimp only; omega, by dsimp only; omega,
        by dsimp only; omega, by dsimp only; omega, by dsimp only; omega⟩, ?_⟩
      unfold encodeZ
      dsimp only
      have hxx : v.x = n.x - 1 := by omega
      rw [hxx]
      ring
    · rw [if_neg hy]
      have hxx : v.x = n.x - 1 := by omega
      have hyy : v.y = n.y - 1 := by omega
      have henc : encodeZ n v + 1 = n.x * n.y * (v.z + 1) := by
        unfold encodeZ
        rw [hxx, hyy]
        ring
      have hz : v.z + 1 < n.z := by
        by_contra hz
        have hzz : v.z + 1 = n.z := by omega
        rw [henc, hzz] at hlt
        omega
      refine ⟨⟨by dsimp only; omega, by dsimp only; omega, by dsimp only; omega,
        by dsimp only; omega, by dsimp only; omega, by dsimp only; omega⟩, ?_⟩
      unfold encodeZ
      dsimp only
      rw [hxx, hyy]
      ring

theorem fsuccIter_spec {n : IntVect} (hn1 : 1 ≤ n.x) (hn2 : 1 ≤ n.y)
    (hn3 : 1 ≤ n.z) :
    ∀ k : Nat, (k : Int) < n.x * n.y * n.z →
      inRange n (fsuccIter n k) ∧ encodeZ n (fsuccIter n k) = k := by
  intro k
  induction k with
  | zero =>
    intro _
    constructor
    · unfold inRange fsuccIter IntVect.zero
      dsimp only
      omega
    · unfold encodeZ fsuccIter IntVect.zero
      dsimp only
      ring
  | succ k ih =>
    intro hk
    have hk0 : (k : Int) < n.x * n.y * n.z := by push_cast at hk ⊢; omega
    obtain ⟨hr, he⟩ := ih hk0
    have hlt : encodeZ n (fsuccIter n k) + 1 < n.x * n.y * n.z := by
      rw [he]; push_cast at hk ⊢; omega
    obtain ⟨hr2, he2⟩ := fsucc_spec hr hlt
    refine ⟨hr2, ?_⟩
    rw [show fsuccIter n (k + 1) = fsucc n (fsuccIter n k) from rfl] at *
    rw [he2, he]
    push_cast
    ring

theorem buildBoxes_length (domain : Box) (M n : IntVect) :
    ∀ (count : Nat) (b : Box), (buildBoxes domain M n count b).length = count := by
  intro count
  induction count with
  | zero => intro b; rfl
  | succ c ih =>
    intro b
    rw [show buildBoxes domain M n (c + 1) b
        = b :: buildBoxes domain M n c (defineStep domain M n b) from rfl,
      List.length_cons, ih]

theorem buildBoxes_eq {domain : Box} {M n : IntVect}
    (hM1 : 1 ≤ M.x) (hM2 : 1 ≤ M.y) (hM3 : 1 ≤ M.z)
    (hn1 : 1 ≤ n.x) (hn2 : 1 ≤ n.y) (hn3 : 1 ≤ n.z)
    (hD1 : domain.hi.x = domain.lo.x + n.x * M.x - 1)
    (hD2 : domain.hi.y = domain.lo.y + n.y * M.y - 1)
    (hD3 : domain.hi.z = domain.lo.z + n.z * M.z - 1) :
    ∀ (count k : Nat), (k : Int) + count ≤ n.x * n.y * n.z →
      buildBoxes domain M n count (latticeBox domain.lo M (fsuccIter n k)) =
        (List.range count).map
          (fun t => latticeBox domain.lo M (fsuccIter n (k + t))) := by
  intro count
  induction count with
  | zero => intro k _; rfl
  | succ c ih =>
    intro k hk
    have hklt : (k : Int) < n.x * n.y * n.z := by push_cast at hk ⊢; omega
    obtain ⟨hr, _⟩ := fsuccIter_spec hn1 hn2 hn3 k hklt
    rw [show buildBoxes domain M n (c + 1) (latticeBox domain.lo M (fsuccIter n k))
        = latticeBox domain.lo M (fsuccIter n k)
          :: buildBoxes domain M n c
            (defineStep domain M n (latticeBox domain.lo M (fsuccIter n k))) from rfl,
      defineStep_lattice _ hM1 hM2 hM3 hD1 hD2 hD3 hr,
      show fsucc n (fsuccIter n k) = fsuccIter n (k + 1) from rfl,
      ih (k + 1) (by push_cast at hk ⊢; omega),
      List.range_succ_eq_map, List.map_cons, List.map_map]
    refine congrArg₂ (· :: ·) (by rw [Nat.add_zero]) ?_
    refine List.map_congr_left ?_
    intro t _
    simp only [Function.comp_apply]
    refine congrArg _ (congrArg _ ?_)
    omega

theorem pos_factor {a b c : Int} (hb : 1 ≤ b) (hc : 1 ≤ c) (h : a * b = c) :
    1 ≤ a := by
  by_contra ha
  have h0 : a ≤ 0 := by omega
  have h1 : a * b ≤ 0 * b := mul_le_mul_of_nonneg_right h0 (by omega)
  rw [zero_mul] at h1
  omega

theorem one_le_mul3 {a b c : Int} (ha : 1 ≤ a) (hb : 1 ≤ b) (hc : 1 ≤ c) :
    1 ≤ a * b * c := by
  have h1 : (1 : Int) * 1 ≤ a * b := mul_le_mul ha hb (by omega) (by omega)
  rw [one_mul] at h1
  have h2 : (1 : Int) * 1 ≤ (a * b) * c := mul_le_mul h1 hc (by omega) (by omega)
  rw [one_mul] at h2
  exact h2

/-- Inversion of a successful `DisjointBoxLayout::define`: the guards held
and every field has the value computed by the source. -/
theorem dblDefine_inv {P p : Int} {dom : Box} {M : IntVect} {dbl : DBL}
    (h : dblDefine P p dom M = some dbl) :
    dbl.domain = dom ∧
    dbl.numBox.mulV M = (dom.hi.sub dom.lo).add IntVect.unit ∧
    dbl.size = dbl.numBox.x * dbl.numBox.y * dbl.numBox.z ∧
    dbl.size = dbl.numLocalBox * P ∧
    dbl.numLocalBox = dbl.size.tdiv P ∧
    dbl.localIdxBeg = p * dbl.numLocalBox ∧
    dbl.numProc = P ∧
    dbl.procID = p ∧
    dbl.stride = ⟨1, dbl.numBox.x, dbl.numBox.x * dbl.numBox.y⟩ ∧
    dbl.boxes = (buildBoxes dom M dbl.numBox dbl.size.toNat
        ⟨dom.lo, (dom.lo.add M).sub IntVect.unit⟩).mapIdx
      (fun k bx => ⟨bx, (k : Int).tdiv dbl.numLocalBox⟩) := by
  unfold dblDefine at h
  simp only [] at h
  split_ifs at h with hA hB
  · have h2 := Option.some.inj h
    subst h2
    refine ⟨rfl, hA, rfl, hB, rfl, rfl, rfl, rfl, rfl, rfl⟩

/-- Derived geometry facts of a layout built with a non-empty domain and
positive `maxBoxSize`. -/
theorem dbl_geom {P p : Int} {dom : Box} {M : IntVect} {dbl : DBL}
    (h : dblDefine P p dom M = some dbl)
    (hM1 : 1 ≤ M.x) (hM2 : 1 ≤ M.y) (hM3 : 1 ≤ M.z)
    (hd1 : dom.lo.x ≤ dom.hi.x) (hd2 : dom.lo.y ≤ dom.hi.y)
    (hd3 : dom.lo.z ≤ dom.hi.z) :
    1 ≤ dbl.numBox.x ∧ 1 ≤ dbl.numBox.y ∧ 1 ≤ dbl.numBox.z ∧
    dom.hi.x = dom.lo.x + dbl.numBox.x * M.x - 1 ∧
    dom.hi.y = dom.lo.y + dbl.numBox.y * M.y - 1 ∧
    dom.hi.z = dom.lo.z + dbl.numBox.z * M.z - 1 ∧
    1 ≤ dbl.size := by
  obtain ⟨-, hMul, hSize, -, -, -, -, -, -, -⟩ := dblDefine_inv h
  unfold IntVect.mulV IntVect.sub IntVect.add IntVect.unit at hMul
  have ex : dbl.numBox.x * M.x = dom.hi.x - dom.lo.x + 1 := congrArg IntVect.x hMul
  have ey : dbl.numBox.y * M.y = dom.hi.y - dom.lo.y + 1 := congrArg IntVect.y hMul
  have ez : dbl.numBox.z * M.z = dom.hi.z - dom.lo.z + 1 := congrArg IntVect.z hMul
  have nx : 1 ≤ dbl.numBox.x := pos_factor hM1 (by omega) ex
  have ny : 1 ≤ dbl.numBox.y := pos_factor hM2 (by omega) ey
  have nz : 1 ≤ dbl.numBox.z := pos_factor hM3 (by omega) ez
  have hs : 1 ≤ dbl.size := by rw [hSize]; exact one_le_mul3 nx ny nz
  exact ⟨nx, ny, nz, by omega, by omega, by omega, hs⟩

/-- Every entry of the box table of a layout is the lattice sub-box at the
Fortran decoding of its linear index, owned by `index / boxPerProc`. -/
theorem dbl_boxes_entry {P p : Int} {dom : Box} {M : IntVect} {dbl : DBL}
    (h : dblDefine P p dom M = some dbl)
    (hM1 : 1 ≤ M.x) (hM2 : 1 ≤ M.y) (hM3 : 1 ≤ M.z)
    (hd1 : dom.lo.x ≤ dom.hi.x) (hd2 : dom.lo.y ≤ dom.hi.y)
    (hd3 : dom.lo.z ≤ dom.hi.z) :
    dbl.boxes.length = dbl.size.toNat ∧
    ∀ (k : Nat), k < dbl.boxes.length →
      ∃ hk : k < dbl.boxes.length,
        dbl.boxes[k] = ⟨latticeBox dom.lo M (fsuccIter dbl.numBox k),
          (k : Int).tdiv dbl.numLocalBox⟩ ∧
        inRange dbl.numBox (fsuccIter dbl.numBox k) ∧
        encodeZ dbl.numBox (fsuccIter dbl.numBox k) = k := by
  obtain ⟨-, -, hSize, -, -, -, -, -, -, hBoxes⟩ := dblDefine_inv h
  obtain ⟨hn1, hn2, hn3, hD1, hD2, hD3, hs⟩ := dbl_geom h hM1 hM2 hM3 hd1 hd2 hd3
  have hcount : ((0 : Nat) : Int) + (dbl.size.toNat : Int)
      ≤ dbl.numBox.x * dbl.numBox.y * dbl.numBox.z := by
    rw [← hSize]; omega
  have hbuild := buildBoxes_eq hM1 hM2 hM3 hn1 hn2 hn3 hD1 hD2 hD3
    dbl.size.toNat 0 hcount
  rw [show latticeBox dom.lo M (fsuccIter dbl.numBox 0)
      = ⟨dom.lo, (dom.lo.add M).sub IntVect.unit⟩ from latticeBox_zero dom.lo M]
    at hbuild
  have hlen : dbl.boxes.length = dbl.size.toNat := by
    rw [hBoxes, List.length_mapIdx, buildBoxes_length]
  refine ⟨hlen, ?_⟩
  intro k hk
  refine ⟨hk, ?_, ?_⟩
  · have hk2 : k < (buildBoxes dom M dbl.numBox dbl.size.toNat
        ⟨dom.lo, (dom.lo.add M).sub IntVect.unit⟩).length := by
      rw [buildBoxes_length]; omega
    have e1 : dbl.boxes[k] = (⟨(buildBoxes dom M dbl.numBox dbl.size.toNat
          ⟨dom.lo, (dom.lo.add M).sub IntVect.unit⟩)[k],
        (k : Int).tdiv dbl.numLocalBox⟩ : BoxEntry) := by
      simp only [hBoxes]
      rw [List.getElem_mapIdx]
    rw [e1]
    refine congrArg₂ BoxEntry.mk ?_ rfl
    rw [List.getElem_of_eq hbuild, List.getElem_map, List.getElem_range,
      Nat.zero_add]
  · have hki : (k : Int) < dbl.numBox.x * dbl.numBox.y * dbl.numBox.z := by
      rw [← hSize]; omega
    exact (fsuccIter_spec hn1 hn2 hn3 k hki).imp id (fun he => he)

/-- One-dimensional cell location: a coordinate inside an evenly divided
interval lies in one of the `n` sub-intervals of width `M`. -/
theorem interval_cell {M n lo q : Int} (hM : 1 ≤ M) (hn : 1 ≤ n)
    (hq1 : lo ≤ q) (hq2 : q ≤ lo + n * M - 1) :
    ∃ w : Int, 0 ≤ w ∧ w < n ∧ lo + w * M ≤ q ∧ q ≤ lo + w * M + M - 1 := by
  have hdm := Int.ediv_add_emod (q - lo) M
  have hm1 : 0 ≤ (q - lo) % M := Int.emod_nonneg _ (by omega)
  have hm2 : (q - lo) % M < M := Int.emod_lt_of_pos _ (by omega)
  have hw0 : 0 ≤ (q - lo) / M := Int.ediv_nonneg (by omega) (by omega)
  have hcm : ((q - lo) / M) * M = M * ((q - lo) / M) := by ring
  refine ⟨(q - lo) / M, hw0, ?_, by omega, by omega⟩
  by_contra hwn
  have hge : n ≤ (q - lo) / M := by omega
  have hmul : n * M ≤ ((q - lo) / M) * M := mul_le_mul_of_nonneg_right hge (by omega)
  omega

/-- Distinct lattice positions give disjoint sub-boxes. -/
theorem latticeBox_disjoint {lo M : IntVect}
    (hM1 : 1 ≤ M.x) (hM2 : 1 ≤ M.y) (hM3 : 1 ≤ M.z) {v w : IntVect}
    (hne : v ≠ w) : ((latticeBox lo M v).inter (latticeBox lo M w)).isEmpty := by
  have hc : v.x ≠ w.x ∨ v.y ≠ w.y ∨ v.z ≠ w.z := by
    by_contra hc
    push_neg at hc
    exact hne (IntVect.eq_of_comps hc.1 hc.2.1 hc.2.2)
  rw [latticeBox_comp, latticeBox_comp]
  unfold Box.inter Box.isEmpty IntVect.minV IntVect.maxV
  dsimp only
  rcases hc with hx | hy | hz
  · left
    rcases lt_or_gt_of_ne hx with hlt | hlt
    · have hm : (v.x + 1) * M.x ≤ w.x * M.x :=
        mul_le_mul_of_nonneg_right (by omega) (by omega)
      have he : (v.x + 1) * M.x = v.x * M.x + M.x := by ring
      exact lt_of_le_of_lt (min_le_left _ _)
        (lt_of_lt_of_le (by omega) (le_max_right _ _))
    · have hm : (w.x + 1) * M.x ≤ v.x * M.x :=
        mul_le_mul_of_nonneg_right (by omega) (by omega)
      have he : (w.x + 1) * M.x = w.x * M.x + M.x := by ring
      exact lt_of_le_of_lt (min_le_right _ _)
        (lt_of_lt_of_le (by omega) (le_max_left _ _))
  · right; left
    rcases lt_or_gt_of_ne hy with hlt | hlt
    · have hm : (v.y + 1) * M.y ≤ w.y * M.y :=
        mul_le_mul_of_nonneg_right (by omega) (by omega)
      have he : (v.y + 1) * M.y = v.y * M.y + M.y := by ring
      exact lt_of_le_of_lt (min_le_left _ _)
        (lt_of_lt_of_le (by omega) (le_max_right _ _))
    · have hm : (w.y + 1) * M.y ≤ v.y * M.y :=
        mul_le_mul_of_nonneg_right (by omega) (by omega)
      have he : (w.y + 1) * M.y = w.y * M.y + M.y := by ring
      exact lt_of_le_of_lt (min_le_right _ _)
        (lt_of_lt_of_le (by omega) (le_max_left _ _))
  · right; right
    rcases lt_or_gt_of_ne hz with hlt | hlt
    · have hm : (v.z + 1) * M.z ≤ w.z * M.z :=
        mul_le_mul_of_nonneg_right (by omega) (by omega)
      have he : (v.z + 1) * M.z = v.z * M.z + M.z := by ring
      exact lt_of_le_of_lt (min_le_left _ _)
        (lt_of_lt_of_le (by omega) (le_max_right _ _))
    · have hm : (w.z + 1) * M.z ≤ v.z * M.z :=
        mul_le_mul_of_nonneg_right (by omega) (by omega)
      have he : (w.z + 1) * M.z = w.z * M.z + M.z := by ring
      exact lt_of_le_of_lt (min_le_right _ _)
        (lt_of_lt_of_le (by omega) (le_max_left _ _))

/-- Membership of a cell in a lattice sub-box, componentwise. -/
theorem containsIV_latticeBox {lo M v q : IntVect} :
    (latticeBox lo M v).containsIV q ↔
      (lo.x + v.x * M.x ≤ q.x ∧ q.x ≤ lo.x + v.x * M.x + M.x - 1 ∧
       lo.y + v.y * M.y ≤ q.y ∧ q.y ≤ lo.y + v.y * M.y + M.y - 1 ∧
       lo.z + v.z * M.z ≤ q.z ∧ q.z ≤ lo.z + v.z * M.z + M.z - 1) := by
  rw [latticeBox_comp]
  unfold Box.containsIV IntVect.le
  dsimp only
  omega

/-- An in-range lattice sub-box is contained in the domain (cellwise). -/
theorem latticeBox_subset_domain {dom : Box} {M n v : IntVect}
    (hM1 : 1 ≤ M.x) (hM2 : 1 ≤ M.y) (hM3 : 1 ≤ M.z)
    (hD1 : dom.hi.x = dom.lo.x + n.x * M.x - 1)
    (hD2 : dom.hi.y = dom.lo.y + n.y * M.y - 1)
    (hD3 : dom.hi.z = dom.lo.z + n.z * M.z - 1)
    (hv : inRange n v) {q : IntVect}
    (hq : (latticeBox dom.lo M v).containsIV q) : dom.containsIV q := by
  obtain ⟨hv1, hv2, hv3, hv4, hv5, hv6⟩ := hv
  rw [containsIV_latticeBox] at hq
  unfold Box.containsIV IntVect.le
  have a1 : 0 ≤ v.x * M.x := mul_nonneg (by omega) (by omega)
  have a2 : 0 ≤ v.y * M.y := mul_nonneg (by omega) (by omega)
  have a3 : 0 ≤ v.z * M.z := mul_nonneg (by omega) (by omega)
  have b1 : (v.x + 1) * M.x ≤ n.x * M.x := mul_le_mul_of_nonneg_right (by omega) (by omega)
  have b2 : (v.y + 1) * M.y ≤ n.y * M.y := mul_le_mul_of_nonneg_right (by omega) (by omega)
  have b3 : (v.z + 1) * M.z ≤ n.z * M.z := mul_le_mul_of_nonneg_right (by omega) (by omega)
  have c1 : (v.x + 1) * M.x = v.x * M.x + M.x := by ring
  have c2 : (v.y + 1) * M.y = v.y * M.y + M.y := by ring
  have c3 : (v.z + 1) * M.z = v.z * M.z + M.z := by ring
  omega

/-- CLAIM C2.  A `DisjointBoxLayout` successfully constructed by
`DisjointBoxLayout::define` partitions the problem domain: every domain cell
lies in some table box, every table box lies in the domain, and any two
distinct table boxes have empty intersection. -/
theorem claimC2_partition (P p : Int) (dom : Box) (M : IntVect) (dbl : DBL)
    (h : dblDefine P p dom M = some dbl)
    (hM1 : 1 ≤ M.x) (hM2 : 1 ≤ M.y) (hM3 : 1 ≤ M.z)
    (hd1 : dom.lo.x ≤ dom.hi.x) (hd2 : dom.lo.y ≤ dom.hi.y)
    (hd3 : dom.lo.z ≤ dom.hi.z) :
    (∀ q : IntVect, dom.containsIV q ↔
      ∃ (i : Nat) (hi : i < dbl.boxes.length), (dbl.boxes[i]).box.containsIV q) ∧
    (∀ (i j : Nat) (hi : i < dbl.boxes.length) (hj : j < dbl.boxes.length),
      i ≠ j → ((dbl.boxes[i]).box.inter (dbl.boxes[j]).box).isEmpty) := by
  obtain ⟨hn1, hn2, hn3, hD1, hD2, hD3, hts⟩ := dbl_geom h hM1 hM2 hM3 hd1 hd2 hd3
  obtain ⟨hlen, hent⟩ := dbl_boxes_entry h hM1 hM2 hM3 hd1 hd2 hd3
  obtain ⟨-, -, hSize, -, -, -, -, -, -, -⟩ := dblDefine_inv h
  constructor
  · intro q
    constructor
    · intro hq
      obtain ⟨⟨hq1, hq2, hq3⟩, hq4, hq5, hq6⟩ := hq
      obtain ⟨wx, hwx0, hwx1, hwx2, hwx3⟩ :=
        interval_cell hM1 hn1 hq1 (by omega : q.x ≤ dom.lo.x + dbl.numBox.x * M.x - 1)
      obtain ⟨wy, hwy0, hwy1, hwy2, hwy3⟩ :=
        interval_cell hM2 hn2 hq2 (by omega : q.y ≤ dom.lo.y + dbl.numBox.y * M.y - 1)
      obtain ⟨wz, hwz0, hwz1, hwz2, hwz3⟩ :=
        interval_cell hM3 hn3 hq3 (by omega : q.z ≤ dom.lo.z + dbl.numBox.z * M.z - 1)
      have hw : inRange dbl.numBox ⟨wx, wy, wz⟩ := by
        unfold inRange; dsimp only; omega
      obtain ⟨henc0, henc1⟩ := encodeZ_bounds hw
      have hkl : (encodeZ dbl.numBox ⟨wx, wy, wz⟩).toNat < dbl.boxes.length := by
        rw [hlen]; omega
      obtain ⟨hk, hval, hrange, hencI⟩ := hent _ hkl
      refine ⟨(encodeZ dbl.numBox ⟨wx, wy, wz⟩).toNat, hk, ?_⟩
      have hii : fsuccIter dbl.numBox (encodeZ dbl.numBox ⟨wx, wy, wz⟩).toNat
          = ⟨wx, wy, wz⟩ := by
        refine encodeZ_inj hrange hw ?_
        rw [hencI]
        omega
      rw [hval]
      dsimp only
      rw [hii, containsIV_latticeBox]
      dsimp only
      omega
    · rintro ⟨i, hi, hqi⟩
      obtain ⟨hk, hval, hrange, hencI⟩ := hent i hi
      rw [hval] at hqi
      dsimp only at hqi
      exact latticeBox_subset_domain hM1 hM2 hM3 hD1 hD2 hD3 hrange hqi
  · intro i j hi hj hij
    obtain ⟨hki, hvali, hrangei, henci⟩ := hent i hi
    obtain ⟨hkj, hvalj, hrangej, hencj⟩ := hent j hj
    rw [hvali, hvalj]
    dsimp only
    refine latticeBox_disjoint hM1 hM2 hM3 ?_
    intro hEq
    apply hij
    have : encodeZ dbl.numBox (fsuccIter dbl.numBox i)
        = encodeZ dbl.numBox (fsuccIter dbl.numBox j) := by rw [hEq]
    omega

/-- Witness for C2 at the concrete layout `dblW` (2 x 2 x 2 boxes over
domain `[0,3]^3`, split over 2 processes). -/
theorem claimC2_witness :
    dblDefine 2 0 (Box.mk ⟨0, 0, 0⟩ ⟨3, 3, 3⟩) ⟨2, 2, 2⟩ = some dblW ∧
    ((∀ q : IntVect, (Box.mk ⟨0, 0, 0⟩ ⟨3, 3, 3⟩).containsIV q ↔
      ∃ (i : Nat) (hi : i < dblW.boxes.length), (dblW.boxes[i]).box.containsIV q) ∧
    (∀ (i j : Nat) (hi : i < dblW.boxes.length) (hj : j < dblW.boxes.length),
      i ≠ j → ((dblW.boxes[i]).box.inter (dblW.boxes[j]).box).isEmpty)) :=
  ⟨by decide,
    claimC2_partition 2 0 (Box.mk ⟨0, 0, 0⟩ ⟨3, 3, 3⟩) ⟨2, 2, 2⟩ dblW (by decide)
      (by decide) (by decide) (by decide) (by decide) (by decide) (by decide)⟩

/-- CLAIM C9.  With positive box sizes, a non-empty domain and at least one
process, `DisjointBoxLayout::define` succeeds exactly when the domain
dimensions divide evenly by `maxBoxSize` and the total box count divides
evenly by the number of processes; otherwise it dies on the
`UnevenPartition` assertions (modelled as `none`). -/
theorem claimC9_uneven_partition (P p : Int) (dom : Box) (M : IntVect)
    (hP : 1 ≤ P)
    (hM1 : 1 ≤ M.x) (hM2 : 1 ≤ M.y) (hM3 : 1 ≤ M.z)
    (hd1 : dom.lo.x ≤ dom.hi.x) (hd2 : dom.lo.y ≤ dom.hi.y)
    (hd3 : dom.lo.z ≤ dom.hi.z) :
    (∃ dbl, dblDefine P p dom M = some dbl) ↔
      (M.x ∣ dom.hi.x - dom.lo.x + 1 ∧ M.y ∣ dom.hi.y - dom.lo.y + 1 ∧
       M.z ∣ dom.hi.z - dom.lo.z + 1 ∧
       P ∣ (dom.hi.x - dom.lo.x + 1).tdiv M.x * ((dom.hi.y - dom.lo.y + 1).tdiv M.y)
            * ((dom.hi.z - dom.lo.z + 1).tdiv M.z)) := by
  constructor
  · rintro ⟨dbl, h⟩
    obtain ⟨-, hMul, hSize, hFit, hbpp, -, -, -, -, -⟩ := dblDefine_inv h
    unfold IntVect.mulV IntVect.sub IntVect.add IntVect.unit at hMul
    have ex : dbl.numBox.x * M.x = dom.hi.x - dom.lo.x + 1 := congrArg IntVect.x hMul
    have ey : dbl.numBox.y * M.y = dom.hi.y - dom.lo.y + 1 := congrArg IntVect.y hMul
    have ez : dbl.numBox.z * M.z = dom.hi.z - dom.lo.z + 1 := congrArg IntVect.z hMul
    have tx : (dom.hi.x - dom.lo.x + 1).tdiv M.x = dbl.numBox.x := by
      rw [← ex]; exact Int.mul_tdiv_cancel _ (by omega)
    have ty : (dom.hi.y - dom.lo.y + 1).tdiv M.y = dbl.numBox.y := by
      rw [← ey]; exact Int.mul_tdiv_cancel _ (by omega)
    have tz : (dom.hi.z - dom.lo.z + 1).tdiv M.z = dbl.numBox.z := by
      rw [← ez]; exact Int.mul_tdiv_cancel _ (by omega)
    refine ⟨⟨dbl.numBox.x, by rw [← ex]; ring⟩, ⟨dbl.numBox.y, by rw [← ey]; ring⟩,
      ⟨dbl.numBox.z, by rw [← ez]; ring⟩, ?_⟩
    rw [tx, ty, tz, ← hSize, hFit]
    exact ⟨dbl.numLocalBox, by ring⟩
  · rintro ⟨dx, dy, dz, dp⟩
    have hg1 : ((((dom.hi.sub dom.lo).add IntVect.unit).divV M).mulV M)
        = (dom.hi.sub dom.lo).add IntVect.unit := by
      unfold IntVect.divV IntVect.mulV IntVect.sub IntVect.add IntVect.unit
      refine IntVect.eq_of_comps ?_ ?_ ?_ <;> dsimp only <;>
        exact Int.tdiv_mul_cancel (by assumption)
    have hsz0 : 0 ≤ (dom.hi.x - dom.lo.x + 1).tdiv M.x *
        ((dom.hi.y - dom.lo.y + 1).tdiv M.y) *
        ((dom.hi.z - dom.lo.z + 1).tdiv M.z) := by
      have q1 : 0 ≤ (dom.hi.x - dom.lo.x + 1).tdiv M.x := by
        rw [Int.tdiv_eq_ediv (by omega) (by omega)]
        exact Int.ediv_nonneg (by omega) (by omega)
      have q2 : 0 ≤ (dom.hi.y - dom.lo.y + 1).tdiv M.y := by
        rw [Int.tdiv_eq_ediv (by omega) (by omega)]
        exact Int.ediv_nonneg (by omega) (by omega)
      have q3 : 0 ≤ (dom.hi.z - dom.lo.z + 1).tdiv M.z := by
        rw [Int.tdiv_eq_ediv (by omega) (by omega)]
        exact Int.ediv_nonneg (by omega) (by omega)
      exact mul_nonneg (mul_nonneg q1 q2) q3
    have hg2 : ∀ s : Int, 0 ≤ s → P ∣ s → s = s.tdiv P * P := by
      intro s hs hd
      rw [Int.tdiv_mul_cancel hd]
    have hsz0A : 0 ≤ (((dom.hi.sub dom.lo).add IntVect.unit).divV M).x *
        (((dom.hi.sub dom.lo).add IntVect.unit).divV M).y *
        (((dom.hi.sub dom.lo).add IntVect.unit).divV M).z := hsz0
    have dpA : P ∣ (((dom.hi.sub dom.lo).add IntVect.unit).divV M).x *
        (((dom.hi.sub dom.lo).add IntVect.unit).divV M).y *
        (((dom.hi.sub dom.lo).add IntVect.unit).divV M).z := dp
    have hcond2 := hg2 _ hsz0A dpA
    refine Option.isSome_iff_exists.mp ?_
    unfold dblDefine
    simp only []
    split_ifs with h1 h2
    all_goals first
      | rfl
      | exact absurd hg1 h1
      | exact absurd hcond2 h2

/-- Witness for C9: the seed test of the spec, domain `[0,9]^3` with
`maxBoxSize = (5,5,5)` on 2 processes (accepted: 2 x 2 x 2 boxes, 8 boxes on
2 processes). -/
theorem claimC9_witness :
    ((1 : Int) ≤ 2 ∧ (1 : Int) ≤ (⟨5, 5, 5⟩ : IntVect).x) ∧
    ((∃ dbl, dblDefine 2 0 (Box.mk ⟨0, 0, 0⟩ ⟨9, 9, 9⟩) ⟨5, 5, 5⟩ = some dbl) ↔
      ((⟨5, 5, 5⟩ : IntVect).x ∣ (9 : Int) - 0 + 1 ∧
       (⟨5, 5, 5⟩ : IntVect).y ∣ (9 : Int) - 0 + 1 ∧
       (⟨5, 5, 5⟩ : IntVect).z ∣ (9 : Int) - 0 + 1 ∧
       (2 : Int) ∣ ((9 : Int) - 0 + 1).tdiv (⟨5, 5, 5⟩ : IntVect).x *
          (((9 : Int) - 0 + 1).tdiv (⟨5, 5, 5⟩ : IntVect).y)
          * (((9 : Int) - 0 + 1).tdiv (⟨5, 5, 5⟩ : IntVect).z))) :=
  ⟨⟨by decide, by decide⟩,
    claimC9_uneven_partition 2 0 (Box.mk ⟨0, 0, 0⟩ ⟨9, 9, 9⟩) ⟨5, 5, 5⟩
      (by decide) (by decide) (by decide) (by decide) (by decide) (by decide)
      (by decide)⟩

theorem filtTraceFrom_eq_filter (b : Box) (keep : IntVect → Bool) :
    ∀ (fuel : Nat) (p : IntVect),
      filtTraceFrom b keep fuel p = (boxTraceFrom b fuel p).filter keep := by
  intro fuel
  induction fuel with
  | zero => intro p; rfl
  | succ f ih =>
    intro p
    rw [show filtTraceFrom b keep (f + 1) p
        = (if b.containsIV p then
            (if keep p then p :: filtTraceFrom b keep f (boxIterInc b p)
             else filtTraceFrom b keep f (boxIterInc b p))
           else []) from rfl,
      show boxTraceFrom b (f + 1) p
        = (if b.containsIV p then p :: boxTraceFrom b f (boxIterInc b p) else [])
        from rfl]
    by_cases hp : b.containsIV p
    · rw [if_pos hp, if_pos hp]
      by_cases hk : keep p
      · rw [if_pos hk, ih, List.filter_cons_of_pos hk]
      · rw [if_neg hk, ih, List.filter_cons_of_neg (by simpa using hk)]
    · rw [if_neg hp, if_neg hp]
      rfl

theorem encodeZ_add (n a b : IntVect) :
    encodeZ n (a.add b) = encodeZ n a + encodeZ n b := by
  unfold encodeZ IntVect.add
  dsimp only
  ring

theorem linearNbrOffset_encode {dbl : DBL}
    (hstr : dbl.stride = ⟨1, dbl.numBox.x, dbl.numBox.x * dbl.numBox.y⟩)
    (off : IntVect) : dbl.linearNbrOffset off = encodeZ dbl.numBox off := by
  unfold DBL.linearNbrOffset encodeZ
  rw [hstr]
  dsimp only
  ring

theorem ivBaseOf_encode {dbl : DBL}
    (hstr : dbl.stride = ⟨1, dbl.numBox.x, dbl.numBox.x * dbl.numBox.y⟩)
    {v : IntVect} (hv : inRange dbl.numBox v) :
    ivBaseOf dbl (encodeZ dbl.numBox v) = v := by
  have hg0 : 0 ≤ encodeZ dbl.numBox v := (encodeZ_bounds hv).1
  obtain ⟨h1, h2, h3, h4, h5, h6⟩ := hv
  have hlow : 0 ≤ v.x + dbl.numBox.x * v.y := by
    have hb := mul_nonneg (show (0 : Int) ≤ dbl.numBox.x by omega)
      (show (0 : Int) ≤ v.y by omega)
    omega
  have hhigh : v.x + dbl.numBox.x * v.y < dbl.numBox.x * dbl.numBox.y := by
    have hb1 : dbl.numBox.x * v.y ≤ dbl.numBox.x * (dbl.numBox.y - 1) :=
      mul_le_mul_of_nonneg_left (by omega) (by omega)
    have hb2 : dbl.numBox.x * (dbl.numBox.y - 1)
        = dbl.numBox.x * dbl.numBox.y - dbl.numBox.x := by ring
    omega
  have hEnc : encodeZ dbl.numBox v
      = (v.x + dbl.numBox.x * v.y) + v.z * (dbl.numBox.x * dbl.numBox.y) := by
    unfold encodeZ
    ring
  have htd : (encodeZ dbl.numBox v).tdiv (dbl.numBox.x * dbl.numBox.y) = v.z := by
    rw [Int.tdiv_eq_ediv hg0 (by omega), hEnc,
      Int.add_mul_ediv_right _ _ (by omega : dbl.numBox.x * dbl.numBox.y ≠ 0),
      Int.ediv_eq_zero_of_lt hlow hhigh, zero_add]
  have hrem : encodeZ dbl.numBox v - dbl.numBox.x * dbl.numBox.y * v.z
      = v.x + dbl.numBox.x * v.y := by
    rw [hEnc]
    ring
  have htd1 : (v.x + dbl.numBox.x * v.y).tdiv dbl.numBox.x = v.y := by
    rw [Int.tdiv_eq_ediv hlow (by omega),
      show v.x + dbl.numBox.x * v.y = v.x + v.y * dbl.numBox.x from by ring,
      Int.add_mul_ediv_right _ _ (by omega : dbl.numBox.x ≠ 0),
      Int.ediv_eq_zero_of_lt h1 h2, zero_add]
  unfold ivBaseOf
  rw [hstr]
  refine IntVect.eq_of_comps ?_ ?_ ?_ <;> dsimp only
  · rw [htd, hrem, htd1]
    ring
  · rw [htd, hrem, htd1]
  · exact htd

theorem ivBaseOf_spec {dbl : DBL}
    (hstr : dbl.stride = ⟨1, dbl.numBox.x, dbl.numBox.x * dbl.numBox.y⟩)
    (hn1 : 1 ≤ dbl.numBox.x) (hn2 : 1 ≤ dbl.numBox.y) (hn3 : 1 ≤ dbl.numBox.z)
    (g : Int) (h0 : 0 ≤ g)
    (hs : g < dbl.numBox.x * dbl.numBox.y * dbl.numBox.z) :
    inRange dbl.numBox (ivBaseOf dbl g) ∧
    encodeZ dbl.numBox (ivBaseOf dbl g) = g := by
  obtain ⟨hr, he⟩ := fsuccIter_spec hn1 hn2 hn3 g.toNat (by omega)
  have hgg : ((g.toNat : Nat) : Int) = g := by omega
  rw [hgg] at he
  have hbase := ivBaseOf_encode hstr hr
  rw [he] at hbase
  rw [hbase]
  exact ⟨hr, he⟩

/-- CLAIM C8 (amended).  Every BoxIndex yielded by a LayoutIterator sweep has
`localIndex = globalIndex − localIdxBegin`; when the box lies in this
process's owned range that is exactly its position within the range; for
non-local boxes the value is this same offset, not `-1` (the claim's `-1`
clause fails, see the counterexample). -/
theorem claimC8_layout_iterator_local_index (dbl : DBL) (bi : BoxIndex)
    (hbi : bi ∈ layoutIterTrace dbl) :
    bi.localIndex = bi.globalIndex - dbl.localIdxBeg ∧
    (dbl.localIdxBeg ≤ bi.globalIndex →
      bi.globalIndex < dbl.localIdxBeg + dbl.numLocalBox →
      0 ≤ bi.localIndex ∧ bi.localIndex < dbl.numLocalBox) := by
  unfold layoutIterTrace layoutIterStar at hbi
  simp only [List.mem_map, List.mem_range] at hbi
  obtain ⟨k, hk, rfl⟩ := hbi
  dsimp only
  omega

/-- Counterexample to C8 as stated: on the layout `dblW` (8 boxes, 2
processes, this process is rank 0) the LayoutIterator yields
`BoxIndex(5, 5)` for global index 5, whose box is owned by process 1, yet
its local index is 5, not -1. -/
theorem claimC8_counterexample :
    BoxIndex.mk 5 5 ∈ layoutIterTrace dblW ∧
    dblW.procAt 5 ≠ dblW.procID ∧
    (BoxIndex.mk 5 5).localIndex ≠ -1 := by decide

/-- Witness for the amended C8 at the concrete layout `dblW` and the yielded
index `BoxIndex(5, 5)`. -/
theorem claimC8_witness :
    BoxIndex.mk 5 5 ∈ layoutIterTrace dblW ∧
    ((BoxIndex.mk 5 5).localIndex = (BoxIndex.mk 5 5).globalIndex - dblW.localIdxBeg ∧
    (dblW.localIdxBeg ≤ (BoxIndex.mk 5 5).globalIndex →
      (BoxIndex.mk 5 5).globalIndex < dblW.localIdxBeg + dblW.numLocalBox →
      0 ≤ (BoxIndex.mk 5 5).localIndex ∧
        (BoxIndex.mk 5 5).localIndex < dblW.numLocalBox)) :=
  ⟨by decide, claimC8_layout_iterator_local_index dblW (BoxIndex.mk 5 5) (by decide)⟩

theorem inter_containsIV {a b : Box} {p : IntVect} :
    (a.inter b).containsIV p ↔ a.containsIV p ∧ b.containsIV p := by
  unfold Box.inter Box.containsIV IntVect.le IntVect.maxV IntVect.minV
  dsimp only
  simp only [max_le_iff, le_min_iff]
  tauto

theorem neighborOffsets_eq (dbl : DBL) (g : Int) (trim : Nat) :
    neighborOffsets dbl g trim
      = (nbrCropBox dbl g).cells.filter (fun off => ! trimmedB trim off) := by
  unfold neighborOffsets
  rw [filtTraceFrom_eq_filter,
    show boxTraceFrom (nbrCropBox dbl g) ((nbrCropBox dbl g).cells.length + 1)
        (nbrCropBox dbl g).lo = boxTrace (nbrCropBox dbl g) from rfl,
    boxTrace_eq_cells]

theorem shiftedLatticeDomain_containsIV {dbl : DBL} {g : Int} {off : IntVect} :
    (shiftedLatticeDomain dbl g).containsIV off ↔
      inRange dbl.numBox ((ivBaseOf dbl g).add off) := by
  unfold shiftedLatticeDomain Box.shift Box.containsIV IntVect.le IntVect.add
    IntVect.neg IntVect.zero IntVect.sub IntVect.unit inRange
  dsimp only
  omega

theorem shiftLeft_and_ne_zero (m k : Nat) : (1 <<< k) &&& m ≠ 0 ↔ m.testBit k := by
  rw [Nat.shiftLeft_eq, one_mul, Nat.and_comm, Nat.and_two_pow]
  constructor
  · intro h
    by_contra hb
    simp [hb] at h
  · intro h
    simp [h]

theorem testBit_one_iff (i : Nat) : Nat.testBit 1 i = decide (i = 0) := by
  cases i with
  | zero => rfl
  | succ n => simp [Nat.testBit_succ]

theorem norm1_eq_zero {off : IntVect} : off.norm1 = 0 ↔ off = IntVect.zero := by
  unfold IntVect.norm1 IntVect.zero
  constructor
  · intro h
    refine IntVect.eq_of_comps ?_ ?_ ?_ <;> dsimp only <;> omega
  · rintro rfl
    rfl

/-- The skip test of the neighbour iterators, characterised: an offset
passes iff its codimension bit is clear in the trim mask and it is not the
zero offset. -/
theorem trimmedB_false_iff {trim : Nat} {off : IntVect} :
    (! trimmedB trim off) = true ↔
      (¬ Nat.testBit trim off.norm1 ∧ off ≠ IntVect.zero) := by
  unfold trimmedB
  rw [Bool.not_eq_eq_eq_not]
  simp only [Bool.not_true, bne_eq_false_iff_eq]
  constructor
  · intro h
    have hz : ¬ ((1 <<< off.norm1) &&& (trim ||| 1) ≠ 0) := by
      intro hc
      exact hc h
    rw [shiftLeft_and_ne_zero, Nat.testBit_or, testBit_one_iff] at hz
    simp only [Bool.or_eq_true, decide_eq_true_eq] at hz
    push_neg at hz
    refine ⟨by simpa using hz.1, fun hc => hz.2 (by rw [hc]; rfl)⟩
  · rintro ⟨h1, h2⟩
    by_contra hc
    have hne : (1 <<< off.norm1) &&& (trim ||| 1) ≠ 0 := fun hq => hc hq
    rw [shiftLeft_and_ne_zero, Nat.testBit_or, testBit_one_iff] at hne
    simp only [Bool.or_eq_true, decide_eq_true_eq] at hne
    rcases hne with hne | hne
    · exact h1 hne
    · exact h2 (norm1_eq_zero.mp hne)

theorem mem_neighborOffsets {dbl : DBL} {g : Int} {trim : Nat} {off : IntVect} :
    off ∈ neighborOffsets dbl g trim ↔
      (stencilBox.containsIV off ∧
       inRange dbl.numBox ((ivBaseOf dbl g).add off) ∧
       ¬ Nat.testBit trim off.norm1 ∧ off ≠ IntVect.zero) := by
  rw [neighborOffsets_eq, List.mem_filter, Box.mem_cells]
  unfold nbrCropBox
  rw [inter_containsIV, shiftedLatticeDomain_containsIV, trimmedB_false_iff]
  tauto

theorem neighborOffsets_nodup (dbl : DBL) (g : Int) (trim : Nat) :
    (neighborOffsets dbl g trim).Nodup := by
  rw [neighborOffsets_eq]
  exact (Box.cells_nodup _).filter _

/-- For a base box strictly inside the lattice, the cropped stencil is the
whole stencil. -/
theorem nbrCropBox_interior {dbl : DBL} {g : Int}
    (h1 : 1 ≤ (ivBaseOf dbl g).x) (h2 : (ivBaseOf dbl g).x ≤ dbl.numBox.x - 2)
    (h3 : 1 ≤ (ivBaseOf dbl g).y) (h4 : (ivBaseOf dbl g).y ≤ dbl.numBox.y - 2)
    (h5 : 1 ≤ (ivBaseOf dbl g).z) (h6 : (ivBaseOf dbl g).z ≤ dbl.numBox.z - 2) :
    nbrCropBox dbl g = stencilBox := by
  unfold nbrCropBox stencilBox shiftedLatticeDomain Box.inter Box.shift
    IntVect.maxV IntVect.minV IntVect.add IntVect.neg IntVect.zero IntVect.sub
    IntVect.unit
  refine Box.eq_of_lo_hi (IntVect.eq_of_comps ?_ ?_ ?_)
    (IntVect.eq_of_comps ?_ ?_ ?_) <;> dsimp only <;> omega

/-- CLAIM C7.  For every layout position `g` of a constructed layout and
every trim mask, `NeighborIterator` enumerates exactly the stencil offsets
that stay inside the lattice bounds and whose codimension (L1 norm) bit is
clear in the trim mask, the zero offset always excluded; each enumerated
offset yields the global index of the lattice neighbour at `base + offset`;
and with no trimming an interior box yields exactly `3^3 - 1 = 26`
neighbours. -/
theorem claimC7_neighbor_iterator (P p : Int) (dom : Box) (M : IntVect)
    (dbl : DBL) (h : dblDefine P p dom M = some dbl)
    (hM1 : 1 ≤ M.x) (hM2 : 1 ≤ M.y) (hM3 : 1 ≤ M.z)
    (hd1 : dom.lo.x ≤ dom.hi.x) (hd2 : dom.lo.y ≤ dom.hi.y)
    (hd3 : dom.lo.z ≤ dom.hi.z)
    (trim : Nat) (g : Int) (hg0 : 0 ≤ g) (hgs : g < dbl.size) :
    (∀ off : IntVect,
      off ∈ neighborOffsets dbl g trim ↔
        (stencilBox.containsIV off ∧
         inRange dbl.numBox ((ivBaseOf dbl g).add off) ∧
         ¬ Nat.testBit trim off.norm1 ∧ off ≠ IntVect.zero)) ∧
    (neighborOffsets dbl g trim).Nodup ∧
    neighborTrace dbl g trim = (neighborOffsets dbl g trim).map
      (fun off => (off, layoutIterStar dbl
        (encodeZ dbl.numBox ((ivBaseOf dbl g).add off)))) ∧
    (trim = 0 →
      (1 ≤ (ivBaseOf dbl g).x ∧ (ivBaseOf dbl g).x ≤ dbl.numBox.x - 2 ∧
       1 ≤ (ivBaseOf dbl g).y ∧ (ivBaseOf dbl g).y ≤ dbl.numBox.y - 2 ∧
       1 ≤ (ivBaseOf dbl g).z ∧ (ivBaseOf dbl g).z ≤ dbl.numBox.z - 2) →
      (neighborOffsets dbl g trim).length = 26) := by
  obtain ⟨-, -, hSize, -, -, -, -, -, hstr, -⟩ := dblDefine_inv h
  obtain ⟨hn1, hn2, hn3, -, -, -, -⟩ := dbl_geom h hM1 hM2 hM3 hd1 hd2 hd3
  obtain ⟨hbr, hbe⟩ := ivBaseOf_spec hstr hn1 hn2 hn3 g hg0 (by omega)
  refine ⟨fun off => mem_neighborOffsets, neighborOffsets_nodup dbl g trim, ?_, ?_⟩
  · unfold neighborTrace
    refine List.map_congr_left ?_
    intro off _
    refine congrArg _ (congrArg _ ?_)
    rw [linearNbrOffset_encode hstr, encodeZ_add, hbe]
  · intro htrim hint
    obtain ⟨i1, i2, i3, i4, i5, i6⟩ := hint
    subst htrim
    rw [neighborOffsets_eq, nbrCropBox_interior i1 i2 i3 i4 i5 i6]
    decide

/-- Witness for C7 at the layout `dblW3` (3x3x3 lattice), interior base box
with global index 13 (lattice position `(1,1,1)`), no trimming. -/
theorem claimC7_witness :
    ((0 : Int) ≤ 13 ∧ (13 : Int) < dblW3.size) ∧
    ((∀ off : IntVect,
      off ∈ neighborOffsets dblW3 13 0 ↔
        (stencilBox.containsIV off ∧
         inRange dblW3.numBox ((ivBaseOf dblW3 13).add off) ∧
         ¬ Nat.testBit 0 off.norm1 ∧ off ≠ IntVect.zero)) ∧
    (neighborOffsets dblW3 13 0).Nodup ∧
    neighborTrace dblW3 13 0 = (neighborOffsets dblW3 13 0).map
      (fun off => (off, layoutIterStar dblW3
        (encodeZ dblW3.numBox ((ivBaseOf dblW3 13).add off)))) ∧
    ((0 : Nat) = 0 →
      (1 ≤ (ivBaseOf dblW3 13).x ∧ (ivBaseOf dblW3 13).x ≤ dblW3.numBox.x - 2 ∧
       1 ≤ (ivBaseOf dblW3 13).y ∧ (ivBaseOf dblW3 13).y ≤ dblW3.numBox.y - 2 ∧
       1 ≤ (ivBaseOf dblW3 13).z ∧ (ivBaseOf dblW3 13).z ≤ dblW3.numBox.z - 2) →
      (neighborOffsets dblW3 13 0).length = 26)) :=
  ⟨⟨by decide, by decide⟩,
    claimC7_neighbor_iterator 3 0 (Box.mk ⟨0, 0, 0⟩ ⟨5, 5, 5⟩) ⟨2, 2, 2⟩ dblW3
      (by decide) (by decide) (by decide) (by decide) (by decide) (by decide)
      (by decide) 0 13 (by decide) (by decide)⟩

theorem growDir_comp0 (b : Box) (r : Int) :
    b.growDir r 0
      = Box.mk ⟨b.lo.x - r, b.lo.y, b.lo.z⟩ ⟨b.hi.x + r, b.hi.y, b.hi.z⟩ := rfl

theorem growDir_comp1 (b : Box) (r : Int) :
    b.growDir r 1
      = Box.mk ⟨b.lo.x, b.lo.y - r, b.lo.z⟩ ⟨b.hi.x, b.hi.y + r, b.hi.z⟩ := rfl

theorem growDir_comp2 (b : Box) (r : Int) :
    b.growDir r 2
      = Box.mk ⟨b.lo.x, b.lo.y, b.lo.z - r⟩ ⟨b.hi.x, b.hi.y, b.hi.z + r⟩ := rfl

theorem adjBox_low0 (b : Box) :
    b.adjBox 1 0 (-1)
      = Box.mk ⟨b.lo.x - 1, b.lo.y, b.lo.z⟩ ⟨b.lo.x - 1, b.hi.y, b.hi.z⟩ := by
  unfold Box.adjBox
  rw [if_pos (by decide : (-1 : Int) < 0), if_pos (by decide : (1 : Int) > 0)]
  rfl

theorem adjBox_low1 (b : Box) :
    b.adjBox 1 1 (-1)
      = Box.mk ⟨b.lo.x, b.lo.y - 1, b.lo.z⟩ ⟨b.hi.x, b.lo.y - 1, b.hi.z⟩ := by
  unfold Box.adjBox
  rw [if_pos (by decide : (-1 : Int) < 0), if_pos (by decide : (1 : Int) > 0)]
  rfl

theorem adjBox_low2 (b : Box) :
    b.adjBox 1 2 (-1)
      = Box.mk ⟨b.lo.x, b.lo.y, b.lo.z - 1⟩ ⟨b.hi.x, b.hi.y, b.lo.z - 1⟩ := by
  unfold Box.adjBox
  rw [if_pos (by decide : (-1 : Int) < 0), if_pos (by decide : (1 : Int) > 0)]
  rfl

theorem adjBox_high0 (b : Box) :
    b.adjBox 1 0 1
      = Box.mk ⟨b.hi.x + 1, b.lo.y, b.lo.z⟩ ⟨b.hi.x + 1, b.hi.y, b.hi.z⟩ := by
  unfold Box.adjBox
  rw [if_neg (by decide : ¬ ((1 : Int) < 0)), if_pos (by decide : (1 : Int) > 0)]
  rfl

theorem adjBox_high1 (b : Box) :
    b.adjBox 1 1 1
      = Box.mk ⟨b.lo.x, b.hi.y + 1, b.lo.z⟩ ⟨b.hi.x, b.hi.y + 1, b.hi.z⟩ := by
  unfold Box.adjBox
  rw [if_neg (by decide : ¬ ((1 : Int) < 0)), if_pos (by decide : (1 : Int) > 0)]
  rfl

theorem adjBox_high2 (b : Box) :
    b.adjBox 1 2 1
      = Box.mk ⟨b.lo.x, b.lo.y, b.hi.z + 1⟩ ⟨b.hi.x, b.hi.y, b.hi.z + 1⟩ := by
  unfold Box.adjBox
  rw [if_neg (by decide : ¬ ((1 : Int) < 0)), if_pos (by decide : (1 : Int) > 0)]
  rfl

theorem shiftedLatticeDomain_comp (dbl : DBL) (g : Int) :
    shiftedLatticeDomain dbl g = Box.mk
      ⟨-(ivBaseOf dbl g).x, -(ivBaseOf dbl g).y, -(ivBaseOf dbl g).z⟩
      ⟨dbl.numBox.x - 1 - (ivBaseOf dbl g).x,
       dbl.numBox.y - 1 - (ivBaseOf dbl g).y,
       dbl.numBox.z - 1 - (ivBaseOf dbl g).z⟩ := by
  unfold shiftedLatticeDomain Box.shift IntVect.add IntVect.neg IntVect.sub
    IntVect.zero IntVect.unit
  refine Box.eq_of_lo_hi (IntVect.eq_of_comps ?_ ?_ ?_)
    (IntVect.eq_of_comps ?_ ?_ ?_) <;> dsimp only <;> ring

theorem growPeriodicDirs_comp (periodic : Nat) (r : Int) (b : Box) :
    growPeriodicDirs periodic r b = Box.mk
      ⟨b.lo.x - (if periodic &&& (1 <<< 0) ≠ 0 then r else 0),
       b.lo.y - (if periodic &&& (1 <<< 1) ≠ 0 then r else 0),
       b.lo.z - (if periodic &&& (1 <<< 2) ≠ 0 then r else 0)⟩
      ⟨b.hi.x + (if periodic &&& (1 <<< 0) ≠ 0 then r else 0),
       b.hi.y + (if periodic &&& (1 <<< 1) ≠ 0 then r else 0),
       b.hi.z + (if periodic &&& (1 <<< 2) ≠ 0 then r else 0)⟩ := by
  unfold growPeriodicDirs growDirIf
  by_cases c0 : periodic &&& (1 <<< 0) ≠ 0 <;>
    by_cases c1 : periodic &&& (1 <<< 1) ≠ 0 <;>
      by_cases c2 : periodic &&& (1 <<< 2) ≠ 0 <;>
    simp only [ne_eq, c0, c1, c2, not_false_iff, if_true, if_false,
      growDir_comp0, growDir_comp1, growDir_comp2, sub_zero, add_zero]

theorem perPeriodicDomain_comp (dbl : DBL) (g : Int) (periodic : Nat) :
    perPeriodicDomain dbl g periodic = Box.mk
      ⟨-(ivBaseOf dbl g).x - (if periodic &&& (1 <<< 0) ≠ 0 then 1 else 0),
       -(ivBaseOf dbl g).y - (if periodic &&& (1 <<< 1) ≠ 0 then 1 else 0),
       -(ivBaseOf dbl g).z - (if periodic &&& (1 <<< 2) ≠ 0 then 1 else 0)⟩
      ⟨dbl.numBox.x - 1 - (ivBaseOf dbl g).x
         + (if periodic &&& (1 <<< 0) ≠ 0 then 1 else 0),
       dbl.numBox.y - 1 - (ivBaseOf dbl g).y
         + (if periodic &&& (1 <<< 1) ≠ 0 then 1 else 0),
       dbl.numBox.z - 1 - (ivBaseOf dbl g).z
         + (if periodic &&& (1 <<< 2) ≠ 0 then 1 else 0)⟩ := by
  unfold perPeriodicDomain
  rw [shiftedLatticeDomain_comp, growPeriodicDirs_comp]
  refine Box.eq_of_lo_hi (IntVect.eq_of_comps ?_ ?_ ?_)
    (IntVect.eq_of_comps ?_ ?_ ?_) <;> dsimp only <;> ring

theorem perSideLow_comp0 (dbl : DBL) (g : Int) (periodic : Nat)
    (hp : periodic &&& (1 <<< 0) ≠ 0) :
    perSideLow dbl g periodic 0 = Box.mk
      ⟨(perPeriodicDomain dbl g periodic).lo.x,
       (perPeriodicDomain dbl g periodic).lo.y,
       (perPeriodicDomain dbl g periodic).lo.z⟩
      ⟨(perPeriodicDomain dbl g periodic).lo.x,
       (perPeriodicDomain dbl g periodic).hi.y,
       (perPeriodicDomain dbl g periodic).hi.z⟩ := by
  unfold perSideLow
  rw [if_pos hp, growDir_comp0, adjBox_low0]
  refine Box.eq_of_lo_hi (IntVect.eq_of_comps ?_ ?_ ?_)
    (IntVect.eq_of_comps ?_ ?_ ?_) <;> dsimp only <;> ring

theorem perSideLow_comp1 (dbl : DBL) (g : Int) (periodic : Nat)
    (hp : periodic &&& (1 <<< 1) ≠ 0) :
    perSideLow dbl g periodic 1 = Box.mk
      ⟨(perPeriodicDomain dbl g periodic).lo.x,
       (perPeriodicDomain dbl g periodic).lo.y,
       (perPeriodicDomain dbl g periodic).lo.z⟩
      ⟨(perPeriodicDomain dbl g periodic).hi.x,
       (perPeriodicDomain dbl g periodic).lo.y,
       (perPeriodicDomain dbl g periodic).hi.z⟩ := by
  unfold perSideLow
  rw [if_pos hp, growDir_comp1, adjBox_low1]
  refine Box.eq_of_lo_hi (IntVect.eq_of_comps ?_ ?_ ?_)
    (IntVect.eq_of_comps ?_ ?_ ?_) <;> dsimp only <;> ring

theorem perSideLow_comp2 (dbl : DBL) (g : Int) (periodic : Nat)
    (hp : periodic &&& (1 <<< 2) ≠ 0) :
    perSideLow dbl g periodic 2 = Box.mk
      ⟨(perPeriodicDomain dbl g periodic).lo.x,
       (perPeriodicDomain dbl g periodic).lo.y,
       (perPeriodicDomain dbl g periodic).lo.z⟩
      ⟨(perPeriodicDomain dbl g periodic).hi.x,
       (perPeriodicDomain dbl g periodic).hi.y,
       (perPeriodicDomain dbl g periodic).lo.z⟩ := by
  unfold perSideLow
  rw [if_pos hp, growDir_comp2, adjBox_low2]
  refine Box.eq_of_lo_hi (IntVect.eq_of_comps ?_ ?_ ?_)
    (IntVect.eq_of_comps ?_ ?_ ?_) <;> dsimp only <;> ring

theorem perSideHigh_comp0 (dbl : DBL) (g : Int) (periodic : Nat)
    (hp : periodic &&& (1 <<< 0) ≠ 0) :
    perSideHigh dbl g periodic 0 = Box.mk
      ⟨(perPeriodicDomain dbl g periodic).hi.x,
       (perPeriodicDomain dbl g periodic).lo.y,
       (perPeriodicDomain dbl g periodic).lo.z⟩
      ⟨(perPeriodicDomain dbl g periodic).hi.x,
       (perPeriodicDomain dbl g periodic).hi.y,
       (perPeriodicDomain dbl g periodic).hi.z⟩ := by
  unfold perSideHigh
  rw [if_pos hp, growDir_comp0, adjBox_high0]
  refine Box.eq_of_lo_hi (IntVect.eq_of_comps ?_ ?_ ?_)
    (IntVect.eq_of_comps ?_ ?_ ?_) <;> dsimp only <;> ring

theorem perSideHigh_comp1 (dbl : DBL) (g : Int) (periodic : Nat)
    (hp : periodic &&& (1 <<< 1) ≠ 0) :
    perSideHigh dbl g periodic 1 = Box.mk
      ⟨(perPeriodicDomain dbl g periodic).lo.x,
       (perPeriodicDomain dbl g periodic).hi.y,
       (perPeriodicDomain dbl g periodic).lo.z⟩
      ⟨(perPeriodicDomain dbl g periodic).hi.x,
       (perPeriodicDomain dbl g periodic).hi.y,
       (perPeriodicDomain dbl g periodic).hi.z⟩ := by
  unfold perSideHigh
  rw [if_pos hp, growDir_comp1, adjBox_high1]
  refine Box.eq_of_lo_hi (IntVect.eq_of_comps ?_ ?_ ?_)
    (IntVect.eq_of_comps ?_ ?_ ?_) <;> dsimp only <;> ring

theorem perSideHigh_comp2 (dbl : DBL) (g : Int) (periodic : Nat)
    (hp : periodic &&& (1 <<< 2) ≠ 0) :
    perSideHigh dbl g periodic 2 = Box.mk
      ⟨(perPeriodicDomain dbl g periodic).lo.x,
       (perPeriodicDomain dbl g periodic).lo.y,
       (perPeriodicDomain dbl g periodic).hi.z⟩
      ⟨(perPeriodicDomain dbl g periodic).hi.x,
       (perPeriodicDomain dbl g periodic).hi.y,
       (perPeriodicDomain dbl g periodic).hi.z⟩ := by
  unfold perSideHigh
  rw [if_pos hp, growDir_comp2, adjBox_high2]
  refine Box.eq_of_lo_hi (IntVect.eq_of_comps ?_ ?_ ?_)
    (IntVect.eq_of_comps ?_ ?_ ?_) <;> dsimp only <;> ring

theorem perPeriodicDomain_containsIV {dbl : DBL} {g : Int} {periodic : Nat}
    {off : IntVect} :
    (perPeriodicDomain dbl g periodic).containsIV off ↔
      inGrownRange dbl.numBox periodic ((ivBaseOf dbl g).add off) := by
  rw [perPeriodicDomain_comp]
  unfold Box.containsIV IntVect.le inGrownRange IntVect.add
  dsimp only
  by_cases c0 : periodic &&& (1 <<< 0) ≠ 0 <;>
    by_cases c1 : periodic &&& (1 <<< 1) ≠ 0 <;>
      by_cases c2 : periodic &&& (1 <<< 2) ≠ 0 <;>
    simp only [ne_eq, c0, c1, c2, not_false_iff, if_true, if_false] <;> omega

theorem emptyBox_not_containsIV (p : IntVect) : ¬ Box.emptyBox.containsIV p := by
  unfold Box.emptyBox Box.containsIV IntVect.le IntVect.zero IntVect.neg
    IntVect.unit
  dsimp only
  omega

theorem containsBox_containsIV {b c : Box} {p : IntVect}
    (h : b.containsBox c) (hp : c.containsIV p) : b.containsIV p := by
  unfold Box.containsBox IntVect.le at h
  unfold Box.containsIV IntVect.le at hp ⊢
  omega

theorem periodicOffsets_eq (dbl : DBL) (g : Int) (trim periodic : Nat) :
    periodicOffsets dbl g trim periodic
      = (perNbrBox dbl g periodic).cells.filter (perKeep dbl g trim) := by
  unfold periodicOffsets
  rw [filtTraceFrom_eq_filter,
    show boxTraceFrom (perNbrBox dbl g periodic)
        ((perNbrBox dbl g periodic).cells.length + 1) (perNbrBox dbl g periodic).lo
      = boxTrace (perNbrBox dbl g periodic) from rfl,
    boxTrace_eq_cells]

theorem perKeep_iff {dbl : DBL} {g : Int} {trim : Nat} {off : IntVect} :
    perKeep dbl g trim off = true ↔
      ((¬ Nat.testBit trim off.norm1 ∧ off ≠ IntVect.zero) ∧
       ¬ (shiftedLatticeDomain dbl g).containsIV off) := by
  unfold perKeep
  rw [Bool.and_eq_true, trimmedB_false_iff, Bool.not_eq_true',
    decide_eq_false_iff_not]

theorem mem_periodicOffsets {dbl : DBL} {g : Int} {trim periodic : Nat}
    {off : IntVect} :
    off ∈ periodicOffsets dbl g trim periodic ↔
      (stencilBox.containsIV off ∧
       (perPeriodicDomain dbl g periodic).containsIV off ∧
       ¬ (shiftedLatticeDomain dbl g).containsIV off ∧
       ¬ Nat.testBit trim off.norm1 ∧ off ≠ IntVect.zero) := by
  rw [periodicOffsets_eq, List.mem_filter, Box.mem_cells, perKeep_iff]
  unfold perNbrBox
  dsimp only
  by_cases hc : (shiftedLatticeDomain dbl g).containsBox
      (stencilBox.inter (perPeriodicDomain dbl g periodic))
  · rw [if_pos hc]
    constructor
    · intro h
      exact absurd h.1 (emptyBox_not_containsIV off)
    · rintro ⟨h1, h2, h3, -⟩
      exact absurd (containsBox_containsIV hc (inter_containsIV.mpr ⟨h1, h2⟩)) h3
  · rw [if_neg hc, inter_containsIV]
    tauto

theorem periodicOffsets_nodup (dbl : DBL) (g : Int) (trim periodic : Nat) :
    (periodicOffsets dbl g trim periodic).Nodup := by
  rw [periodicOffsets_eq]
  exact (Box.cells_nodup _).filter _

theorem encodeZ_sub (n a b : IntVect) :
    encodeZ n (a.sub b) = encodeZ n a - encodeZ n b := by
  unfold encodeZ IntVect.sub
  dsimp only
  ring

theorem wrapPos_inRange {n : IntVect} {periodic : Nat} {w : IntVect}
    (hn1 : 1 ≤ n.x) (hn2 : 1 ≤ n.y) (hn3 : 1 ≤ n.z)
    (h : inGrownRange n periodic w) :
    inRange n (wrapPos n periodic w) := by
  unfold inGrownRange at h
  unfold wrapPos inRange
  dsimp only
  by_cases c0 : periodic &&& (1 <<< 0) ≠ 0 <;>
    by_cases c1 : periodic &&& (1 <<< 1) ≠ 0 <;>
      by_cases c2 : periodic &&& (1 <<< 2) ≠ 0 <;>
    simp only [ne_eq, c0, c1, c2, not_false_iff, if_true, if_false, true_and,
      false_and] at h ⊢ <;>
    first
    | (split_ifs <;> omega)
    | omega

/-- The offset adjustment of `PeriodicIterator::setCurrent` agrees with the
periodic wrap of the absolute lattice position, for any offset inside the
periodically grown domain. -/
theorem perAdjust_eq_wrap {dbl : DBL} {g : Int} {periodic : Nat} {off : IntVect}
    (hn1 : 1 ≤ dbl.numBox.x) (hn2 : 1 ≤ dbl.numBox.y) (hn3 : 1 ≤ dbl.numBox.z)
    (hPD : (perPeriodicDomain dbl g periodic).containsIV off) :
    perAdjust dbl g periodic off
      = (wrapPos dbl.numBox periodic ((ivBaseOf dbl g).add off)).sub
          (ivBaseOf dbl g) := by
  rw [perPeriodicDomain_comp] at hPD
  unfold Box.containsIV IntVect.le at hPD
  dsimp only at hPD
  obtain ⟨⟨p1, p2, p3⟩, q1, q2, q3⟩ := hPD
  unfold perAdjust wrapPos IntVect.sub IntVect.add IntVect.zero
  refine IntVect.eq_of_comps ?_ ?_ ?_ <;> dsimp only
  · by_cases c0 : periodic &&& (1 <<< 0) ≠ 0
    · rw [perSideLow_comp0 _ _ _ c0, perSideHigh_comp0 _ _ _ c0,
        perPeriodicDomain_comp]
      unfold perAdjustComp Box.containsIV IntVect.le
      dsimp only
      by_cases c1 : periodic &&& (1 <<< 1) ≠ 0 <;>
        by_cases c2 : periodic &&& (1 <<< 2) ≠ 0 <;>
        simp only [ne_eq, c0, c1, c2, not_false_iff, if_true, if_false,
          true_and, false_and] at p1 p2 p3 q1 q2 q3 ⊢ <;>
        first
        | (split_ifs <;> omega)
        | omega
    · unfold perAdjustComp
      dsimp only
      simp only [ne_eq, c0, not_false_iff, if_true, if_false, false_and]
      ring
  · by_cases c1 : periodic &&& (1 <<< 1) ≠ 0
    · rw [perSideLow_comp1 _ _ _ c1, perSideHigh_comp1 _ _ _ c1,
        perPeriodicDomain_comp]
      unfold perAdjustComp Box.containsIV IntVect.le
      dsimp only
      by_cases c0 : periodic &&& (1 <<< 0) ≠ 0 <;>
        by_cases c2 : periodic &&& (1 <<< 2) ≠ 0 <;>
        simp only [ne_eq, c0, c1, c2, not_false_iff, if_true, if_false,
          true_and, false_and] at p1 p2 p3 q1 q2 q3 ⊢ <;>
        first
        | (split_ifs <;> omega)
        | omega
    · unfold perAdjustComp
      dsimp only
      simp only [ne_eq, c1, not_false_iff, if_true, if_false, false_and]
      ring
  · by_cases c2 : periodic &&& (1 <<< 2) ≠ 0
    · rw [perSideLow_comp2 _ _ _ c2, perSideHigh_comp2 _ _ _ c2,
        perPeriodicDomain_comp]
      unfold perAdjustComp Box.containsIV IntVect.le
      dsimp only
      by_cases c0 : periodic &&& (1 <<< 0) ≠ 0 <;>
        by_cases c1 : periodic &&& (1 <<< 1) ≠ 0 <;>
        simp only [ne_eq, c0, c1, c2, not_false_iff, if_true, if_false,
          true_and, false_and] at p1 p2 p3 q1 q2 q3 ⊢ <;>
        first
        | (split_ifs <;> omega)
        | omega
    · unfold perAdjustComp
      dsimp only
      simp only [ne_eq, c2, not_false_iff, if_true, if_false, false_and]
      ring

/-- CLAIM C4.  For every layout position of a constructed layout, every trim
mask and every periodic-direction mask, `PeriodicIterator` enumerates exactly
the stencil offsets that leave the lattice domain while staying inside the
domain grown by one in the mask-enabled directions (the trim skip test also
applies, and the zero offset is always excluded); the enumeration has no
duplicates; each offset is yielded with `nbrDir()` equal to the raw outward
offset while the BoxIndex is that of the wrapped-around lattice position on
the opposite side of the domain, which is a valid lattice position. -/
theorem claimC4_periodic_iterator (P p : Int) (dom : Box) (M : IntVect)
    (dbl : DBL) (h : dblDefine P p dom M = some dbl)
    (hM1 : 1 ≤ M.x) (hM2 : 1 ≤ M.y) (hM3 : 1 ≤ M.z)
    (hd1 : dom.lo.x ≤ dom.hi.x) (hd2 : dom.lo.y ≤ dom.hi.y)
    (hd3 : dom.lo.z ≤ dom.hi.z)
    (trim periodic : Nat) (g : Int) (hg0 : 0 ≤ g) (hgs : g < dbl.size) :
    (∀ off : IntVect,
      off ∈ periodicOffsets dbl g trim periodic ↔
        (stencilBox.containsIV off ∧
         inGrownRange dbl.numBox periodic ((ivBaseOf dbl g).add off) ∧
         ¬ inRange dbl.numBox ((ivBaseOf dbl g).add off) ∧
         ¬ Nat.testBit trim off.norm1 ∧ off ≠ IntVect.zero)) ∧
    (periodicOffsets dbl g trim periodic).Nodup ∧
    periodicTrace dbl g trim periodic = (periodicOffsets dbl g trim periodic).map
      (fun off => (off, layoutIterStar dbl
        (encodeZ dbl.numBox
          (wrapPos dbl.numBox periodic ((ivBaseOf dbl g).add off))))) ∧
    (∀ off ∈ periodicOffsets dbl g trim periodic,
      inRange dbl.numBox (wrapPos dbl.numBox periodic ((ivBaseOf dbl g).add off))) := by
  obtain ⟨-, -, hSize, -, -, -, -, -, hstr, -⟩ := dblDefine_inv h
  obtain ⟨hn1, hn2, hn3, -, -, -, -⟩ := dbl_geom h hM1 hM2 hM3 hd1 hd2 hd3
  obtain ⟨hbr, hbe⟩ := ivBaseOf_spec hstr hn1 hn2 hn3 g hg0 (by omega)
  refine ⟨?_, periodicOffsets_nodup dbl g trim periodic, ?_, ?_⟩
  · intro off
    rw [mem_periodicOffsets, perPeriodicDomain_containsIV,
      shiftedLatticeDomain_containsIV]
  · unfold periodicTrace
    refine List.map_congr_left ?_
    intro off hoff
    have hPD : (perPeriodicDomain dbl g periodic).containsIV off :=
      (mem_periodicOffsets.mp hoff).2.1
    refine congrArg _ (congrArg _ ?_)
    rw [linearNbrOffset_encode hstr, perAdjust_eq_wrap hn1 hn2 hn3 hPD,
      encodeZ_sub, hbe]
    ring
  · intro off hoff
    have hPD : (perPeriodicDomain dbl g periodic).containsIV off :=
      (mem_periodicOffsets.mp hoff).2.1
    exact wrapPos_inRange hn1 hn2 hn3 (perPeriodicDomain_containsIV.mp hPD)

/-- Witness for C4 at the layout `dblW` (2x2x2 lattice), base box of global
index 0 (lattice corner `(0,0,0)`), no trimming, periodic in x only: the
iterator wraps the three low-x face offsets to the boxes on the high-x side. -/
theorem claimC4_witness :
    ((0 : Int) ≤ 0 ∧ (0 : Int) < dblW.size) ∧
    ((∀ off : IntVect,
      off ∈ periodicOffsets dblW 0 0 1 ↔
        (stencilBox.containsIV off ∧
         inGrownRange dblW.numBox 1 ((ivBaseOf dblW 0).add off) ∧
         ¬ inRange dblW.numBox ((ivBaseOf dblW 0).add off) ∧
         ¬ Nat.testBit 0 off.norm1 ∧ off ≠ IntVect.zero)) ∧
    (periodicOffsets dblW 0 0 1).Nodup ∧
    periodicTrace dblW 0 0 1 = (periodicOffsets dblW 0 0 1).map
      (fun off => (off, layoutIterStar dblW
        (encodeZ dblW.numBox
          (wrapPos dblW.numBox 1 ((ivBaseOf dblW 0).add off))))) ∧
    (∀ off ∈ periodicOffsets dblW 0 0 1,
      inRange dblW.numBox (wrapPos dblW.numBox 1 ((ivBaseOf dblW 0).add off)))) :=
  ⟨⟨by decide, by decide⟩,
    claimC4_periodic_iterator 2 0 (Box.mk ⟨0, 0, 0⟩ ⟨3, 3, 3⟩) ⟨2, 2, 2⟩ dblW
      (by decide) (by decide) (by decide) (by decide) (by decide) (by decide)
      (by decide) 0 1 0 (by decide) (by decide)⟩

theorem interiorMotions_eq (dbl : DBL) (mpi : Bool) (nghost : Int) (trim : Nat)
    (bl : BoxIndex) :
    interiorMotions dbl mpi nghost trim bl
      = (neighborOffsets dbl bl.globalIndex trim).map
          (fun off => motionOfNbr dbl mpi nghost bl
            (off, layoutIterStar dbl
              (bl.globalIndex + dbl.linearNbrOffset off))) := by
  unfold interiorMotions neighborTrace
  rw [List.map_map]
  rfl

theorem periodicMotions_eq (dbl : DBL) (mpi : Bool) (nghost : Int)
    (trim periodic : Nat) (bl : BoxIndex) :
    periodicMotions dbl mpi nghost trim periodic bl
      = (periodicOffsets dbl bl.globalIndex trim periodic).map
          (fun off => motionOfPer dbl mpi nghost bl
            (off, layoutIterStar dbl (bl.globalIndex
              + dbl.linearNbrOffset (perAdjust dbl bl.globalIndex periodic off)))) := by
  unfold periodicMotions periodicTrace
  rw [List.map_map]
  rfl

theorem mem_interiorMotions {dbl : DBL} {mpi : Bool} {nghost : Int}
    {trim : Nat} {bl : BoxIndex} {m : Motion2Way} :
    m ∈ interiorMotions dbl mpi nghost trim bl ↔
      ∃ off, off ∈ neighborOffsets dbl bl.globalIndex trim ∧
        m = motionOfNbr dbl mpi nghost bl
          (off, layoutIterStar dbl
            (bl.globalIndex + dbl.linearNbrOffset off)) := by
  rw [interiorMotions_eq, List.mem_map]
  constructor
  · rintro ⟨off, hoff, rfl⟩
    exact ⟨off, hoff, rfl⟩
  · rintro ⟨off, hoff, rfl⟩
    exact ⟨off, hoff, rfl⟩

theorem mem_periodicMotions {dbl : DBL} {mpi : Bool} {nghost : Int}
    {trim periodic : Nat} {bl : BoxIndex} {m : Motion2Way} :
    m ∈ periodicMotions dbl mpi nghost trim periodic bl ↔
      ∃ off, off ∈ periodicOffsets dbl bl.globalIndex trim periodic ∧
        m = motionOfPer dbl mpi nghost bl
          (off, layoutIterStar dbl (bl.globalIndex
            + dbl.linearNbrOffset (perAdjust dbl bl.globalIndex periodic off))) := by
  rw [periodicMotions_eq, List.mem_map]
  constructor
  · rintro ⟨off, hoff, rfl⟩
    exact ⟨off, hoff, rfl⟩
  · rintro ⟨off, hoff, rfl⟩
    exact ⟨off, hoff, rfl⟩

/-- The table box at the linear encoding of an in-range lattice position is
the lattice sub-box at that position. -/
theorem boxAt_encode {P p : Int} {dom : Box} {M : IntVect} {dbl : DBL}
    (h : dblDefine P p dom M = some dbl)
    (hM1 : 1 ≤ M.x) (hM2 : 1 ≤ M.y) (hM3 : 1 ≤ M.z)
    (hd1 : dom.lo.x ≤ dom.hi.x) (hd2 : dom.lo.y ≤ dom.hi.y)
    (hd3 : dom.lo.z ≤ dom.hi.z)
    {v : IntVect} (hv : inRange dbl.numBox v) :
    dbl.boxAt (encodeZ dbl.numBox v) = latticeBox dom.lo M v := by
  obtain ⟨hlen, hent⟩ := dbl_boxes_entry h hM1 hM2 hM3 hd1 hd2 hd3
  obtain ⟨-, -, hSize, -, -, -, -, -, -, -⟩ := dblDefine_inv h
  obtain ⟨hb0, hbs⟩ := encodeZ_bounds hv
  have hkl : (encodeZ dbl.numBox v).toNat < dbl.boxes.length := by
    rw [hlen]
    omega
  obtain ⟨hk, he1, hr2, he3⟩ := hent _ hkl
  have hcast : (((encodeZ dbl.numBox v).toNat : Nat) : Int)
      = encodeZ dbl.numBox v := by omega
  have hveq : fsuccIter dbl.numBox (encodeZ dbl.numBox v).toNat = v := by
    refine encodeZ_inj hr2 hv ?_
    rw [he3, hcast]
  unfold DBL.boxAt
  rw [List.getD_eq_getElem dbl.boxes default hkl, he1]
  dsimp only
  rw [hveq]

/-- The table box at a valid global linear index `g` is the lattice sub-box
at the decoded position `ivBaseOf g`. -/
theorem boxAt_g {P p : Int} {dom : Box} {M : IntVect} {dbl : DBL}
    (h : dblDefine P p dom M = some dbl)
    (hM1 : 1 ≤ M.x) (hM2 : 1 ≤ M.y) (hM3 : 1 ≤ M.z)
    (hd1 : dom.lo.x ≤ dom.hi.x) (hd2 : dom.lo.y ≤ dom.hi.y)
    (hd3 : dom.lo.z ≤ dom.hi.z)
    {g : Int} (hg0 : 0 ≤ g) (hgs : g < dbl.size) :
    dbl.boxAt g = latticeBox dom.lo M (ivBaseOf dbl g) := by
  obtain ⟨-, -, hSize, -, -, -, -, -, hstr, -⟩ := dblDefine_inv h
  obtain ⟨hn1, hn2, hn3, -, -, -, -⟩ := dbl_geom h hM1 hM2 hM3 hd1 hd2 hd3
  obtain ⟨hbr, hbe⟩ := ivBaseOf_spec hstr hn1 hn2 hn3 g hg0 (by omega)
  have hbox := boxAt_encode h hM1 hM2 hM3 hd1 hd2 hd3 hbr
  rw [hbe] at hbox
  exact hbox

/-- Shifting any lattice sub-box by `(L.lo − R.lo) + d · dims(L)` (with `L`
the lattice sub-box at `β` and `R` the one at `w`) lands on the lattice
sub-box at `β + d`. -/
theorem latticeBox_shift_image (lo M β w d : IntVect) :
    (latticeBox lo M w).shift
        (((latticeBox lo M β).lo.sub (latticeBox lo M w).lo).add
          (d.mulV (latticeBox lo M β).dimensions))
      = latticeBox lo M (β.add d) := by
  unfold latticeBox Box.shift Box.dimensions IntVect.add IntVect.sub
    IntVect.mulV IntVect.addScalar IntVect.unit
  refine Box.eq_of_lo_hi (IntVect.eq_of_comps ?_ ?_ ?_)
    (IntVect.eq_of_comps ?_ ?_ ?_) <;> dsimp only <;> ring

theorem isEmpty_not_containsIV {b : Box} (h : b.isEmpty) (q : IntVect) :
    ¬ b.containsIV q := by
  intro hq
  unfold Box.isEmpty at h
  unfold Box.containsIV IntVect.le at hq
  omega

/-- The direction part of `uniqueTag` lies in `[0, 27)` for stencil
offsets. -/
theorem tag_enc_bounds {d : IntVect} (hd : stencilBox.containsIV d) :
    0 ≤ (d.x + 1) + 3 * (d.y + 1) + 9 * (d.z + 1) ∧
    (d.x + 1) + 3 * (d.y + 1) + 9 * (d.z + 1) < 27 := by
  unfold stencilBox Box.containsIV IntVect.le IntVect.neg IntVect.unit at hd
  dsimp only at hd
  omega

theorem tag_inj {g1 g2 e1 e2 : Int} (hb1 : 0 ≤ e1) (hb2 : e1 < 27)
    (hb3 : 0 ≤ e2) (hb4 : e2 < 27) (he : 27 * g1 + e1 = 27 * g2 + e2) :
    g1 = g2 ∧ e1 = e2 := by omega

/-- The direction part of `uniqueTag` determines the stencil offset. -/
theorem enc_stencil_inj {d1 d2 : IntVect}
    (h1 : stencilBox.containsIV d1) (h2 : stencilBox.containsIV d2)
    (he : (d1.x + 1) + 3 * (d1.y + 1) + 9 * (d1.z + 1)
        = (d2.x + 1) + 3 * (d2.y + 1) + 9 * (d2.z + 1)) : d1 = d2 := by
  unfold stencilBox Box.containsIV IntVect.le IntVect.neg IntVect.unit at h1 h2
  dsimp only at h1 h2
  refine IntVect.eq_of_comps ?_ ?_ ?_ <;> omega

/-- Shared facts of every motion item in the group of local box `g`. -/
theorem mem_boxMotions_key {dbl : DBL} {mpi : Bool} {nghost : Int}
    {trim periodic : Nat} {g : Int} {m : Motion2Way}
    (hm : m ∈ boxMotions dbl mpi nghost trim periodic g) :
    m.bidxLocal = layoutIterStar dbl g ∧
    stencilBox.containsIV m.sendDir ∧
    m.tagSend = 27 * g + ((m.sendDir.x + 1) + 3 * (m.sendDir.y + 1)
      + 9 * (m.sendDir.z + 1)) := by
  unfold boxMotions at hm
  rw [List.mem_append] at hm
  rcases hm with hm | hm
  · rw [mem_interiorMotions] at hm
    obtain ⟨off, hoff, rfl⟩ := hm
    exact ⟨rfl, (mem_neighborOffsets.mp hoff).1, rfl⟩
  · split_ifs at hm with hc
    · cases hm
    · rw [mem_periodicMotions] at hm
      obtain ⟨off, hoff, rfl⟩ := hm
      exact ⟨rfl, (mem_periodicOffsets.mp hoff).1, rfl⟩

theorem dataIterTrace_pairwise (dbl : DBL) :
    (dataIterTrace dbl).Pairwise (· ≠ ·) := by
  unfold dataIterTrace
  rw [List.pairwise_map]
  refine List.Pairwise.imp ?_ (List.pairwise_lt_range _)
  intro a b hlt hc
  omega

/-- Within one local box's group, send directions are pairwise distinct:
interior offsets are distinct among themselves, periodic offsets likewise,
and an interior offset (in lattice) never equals a periodic one (out of
lattice). -/
theorem boxMotions_sendDir_pairwise (dbl : DBL) (mpi : Bool) (nghost : Int)
    (trim periodic : Nat) (g : Int) :
    (boxMotions dbl mpi nghost trim periodic g).Pairwise
      (fun m1 m2 => m1.sendDir ≠ m2.sendDir) := by
  unfold boxMotions
  refine List.pairwise_append.mpr ⟨?_, ?_, ?_⟩
  · rw [interiorMotions_eq, List.pairwise_map]
    refine List.Pairwise.imp ?_ (neighborOffsets_nodup dbl _ trim)
    intro o1 o2 hne hc
    exact hne hc
  · split_ifs with hc
    · exact List.Pairwise.nil
    · rw [periodicMotions_eq, List.pairwise_map]
      refine List.Pairwise.imp ?_ (periodicOffsets_nodup dbl _ trim periodic)
      intro o1 o2 hne hcc
      exact hne hcc
  · intro m1 h1 m2 h2
    rw [mem_interiorMotions] at h1
    obtain ⟨o1, ho1, rfl⟩ := h1
    split_ifs at h2 with hc
    · cases h2
    · rw [mem_periodicMotions] at h2
      obtain ⟨o2, ho2, rfl⟩ := h2
      have hin := (mem_neighborOffsets.mp ho1).2.1
      have hout := (mem_periodicOffsets.mp ho2).2.2.1
      rw [shiftedLatticeDomain_containsIV] at hout
      intro hcc
      have ho12 : o1 = o2 := hcc
      rw [ho12] at hin
      exact hout hin

theorem boxMotions_tag_pairwise (dbl : DBL) (mpi : Bool) (nghost : Int)
    (trim periodic : Nat) (g : Int) :
    (boxMotions dbl mpi nghost trim periodic g).Pairwise
      (fun m1 m2 => m1.tagSend ≠ m2.tagSend) := by
  refine List.Pairwise.imp_of_mem ?_
    (boxMotions_sendDir_pairwise dbl mpi nghost trim periodic g)
  intro m1 m2 h1 h2 hne hc
  obtain ⟨-, hs1, ht1⟩ := mem_boxMotions_key h1
  obtain ⟨-, hs2, ht2⟩ := mem_boxMotions_key h2
  rw [ht1, ht2] at hc
  obtain ⟨-, he⟩ := tag_inj (tag_enc_bounds hs1).1 (tag_enc_bounds hs1).2
    (tag_enc_bounds hs2).1 (tag_enc_bounds hs2).2 hc
  exact hne (enc_stencil_inj hs1 hs2 he)

/-- CLAIM C1.  Every motion item of a plan built by `defineExchangeDBL` has
the claimed region shape: with `L` the local and `R` the remote table box,
either the interior shape (`regionRecv = grow(L, nghost) ∩ R`, `regionSend =
L ∩ grow(R, nghost)` when messaging is enabled and the default empty box
otherwise, `regionSendRemote = regionRecv`), or the periodic shape where `R`
is first shifted by `shiftBy = (L.lo − R.lo) + sendDir·dims(L)` and
`regionSendRemote = regionRecv` shifted by `−shiftBy`. -/
theorem claimC1_motion_regions (dbl : DBL) (mpi : Bool) (nghost : Int)
    (trim periodic : Nat) :
    ∀ m ∈ copierPlan dbl mpi nghost trim periodic,
      (m.regionRecv
          = ((dbl.boxAt m.bidxLocal.globalIndex).grow nghost).inter
              (dbl.boxAt m.bidxRemote.globalIndex) ∧
       m.regionSend
          = (if mpi then (dbl.boxAt m.bidxLocal.globalIndex).inter
                ((dbl.boxAt m.bidxRemote.globalIndex).grow nghost)
             else Box.emptyBox) ∧
       m.regionSendRemote = m.regionRecv)
      ∨
      (∃ shiftBy : IntVect,
        shiftBy = ((dbl.boxAt m.bidxLocal.globalIndex).lo.sub
              (dbl.boxAt m.bidxRemote.globalIndex).lo).add
            (m.sendDir.mulV (dbl.boxAt m.bidxLocal.globalIndex).dimensions) ∧
        m.regionRecv
          = ((dbl.boxAt m.bidxLocal.globalIndex).grow nghost).inter
              ((dbl.boxAt m.bidxRemote.globalIndex).shift shiftBy) ∧
        m.regionSend
          = (if mpi then (dbl.boxAt m.bidxLocal.globalIndex).inter
                (((dbl.boxAt m.bidxRemote.globalIndex).shift shiftBy).grow nghost)
             else Box.emptyBox) ∧
        m.regionSendRemote = m.regionRecv.shift shiftBy.neg) := by
  intro m hm
  unfold copierPlan at hm
  split_ifs at hm with hg
  · rw [List.mem_flatMap] at hm
    obtain ⟨g, -, hm⟩ := hm
    unfold boxMotions at hm
    rw [List.mem_append] at hm
    rcases hm with hm | hm
    · rw [mem_interiorMotions] at hm
      obtain ⟨off, -, rfl⟩ := hm
      exact Or.inl ⟨rfl, rfl, rfl⟩
    · split_ifs at hm with hc
      · cases hm
      · rw [mem_periodicMotions] at hm
        obtain ⟨off, -, rfl⟩ := hm
        exact Or.inr ⟨_, rfl, rfl, rfl, rfl⟩
  · cases hm

/-- CLAIM C3.  Every motion item of a plan carries the send tag
`27·globalIndex(local) + (d_x+1) + 3(d_y+1) + 9(d_z+1)` and the receive tag
given by the same formula at the remote global index with direction `−d`;
moreover any two distinct motion items of one plan have different send tags
(in particular any two generating messages between the same process
pair). -/
theorem claimC3_tags (dbl : DBL) (mpi : Bool) (nghost : Int)
    (trim periodic : Nat) :
    (∀ m ∈ copierPlan dbl mpi nghost trim periodic,
      m.tagSend = 27 * m.bidxLocal.globalIndex
        + ((m.sendDir.x + 1) + 3 * (m.sendDir.y + 1)
          + 9 * (m.sendDir.z + 1)) ∧
      m.tagRecv = 27 * m.bidxRemote.globalIndex
        + ((-m.sendDir.x + 1) + 3 * (-m.sendDir.y + 1)
          + 9 * (-m.sendDir.z + 1))) ∧
    (copierPlan dbl mpi nghost trim periodic).Pairwise
      (fun m1 m2 => m1.tagSend ≠ m2.tagSend) := by
  constructor
  · intro m hm
    unfold copierPlan at hm
    split_ifs at hm with hg
    · rw [List.mem_flatMap] at hm
      obtain ⟨g, -, hm⟩ := hm
      unfold boxMotions at hm
      rw [List.mem_append] at hm
      rcases hm with hm | hm
      · rw [mem_interiorMotions] at hm
        obtain ⟨off, -, rfl⟩ := hm
        exact ⟨rfl, rfl⟩
      · split_ifs at hm with hc
        · cases hm
        · rw [mem_periodicMotions] at hm
          obtain ⟨off, -, rfl⟩ := hm
          exact ⟨rfl, rfl⟩
    · cases hm
  · unfold copierPlan
    split_ifs with hg
    · rw [List.pairwise_flatMap]
      refine ⟨fun g _ => boxMotions_tag_pairwise dbl mpi nghost trim periodic g, ?_⟩
      refine List.Pairwise.imp_of_mem ?_ (dataIterTrace_pairwise dbl)
      intro g1 g2 hg1 hg2 hne m1 h1 m2 h2
      obtain ⟨-, hs1, ht1⟩ := mem_boxMotions_key h1
      obtain ⟨-, hs2, ht2⟩ := mem_boxMotions_key h2
      rw [ht1, ht2]
      intro hc
      exact hne (tag_inj (tag_enc_bounds hs1).1 (tag_enc_bounds hs1).2
        (tag_enc_bounds hs2).1 (tag_enc_bounds hs2).2 hc).1
    · exact List.Pairwise.nil

/-- Witness for C1 at the layout `dblW` with messaging enabled and one ghost
cell: the first motion item of the plan (local box 0, +x neighbour). -/
theorem claimC1_witness :
    c1Motion ∈ copierPlan dblW true 1 0 0 ∧
    ((c1Motion.regionRecv
        = ((dblW.boxAt c1Motion.bidxLocal.globalIndex).grow 1).inter
            (dblW.boxAt c1Motion.bidxRemote.globalIndex) ∧
      c1Motion.regionSend
        = (if true then (dblW.boxAt c1Motion.bidxLocal.globalIndex).inter
              ((dblW.boxAt c1Motion.bidxRemote.globalIndex).grow 1)
           else Box.emptyBox) ∧
      c1Motion.regionSendRemote = c1Motion.regionRecv)
     ∨
     (∃ shiftBy : IntVect,
       shiftBy = ((dblW.boxAt c1Motion.bidxLocal.globalIndex).lo.sub
             (dblW.boxAt c1Motion.bidxRemote.globalIndex).lo).add
           (c1Motion.sendDir.mulV
             (dblW.boxAt c1Motion.bidxLocal.globalIndex).dimensions) ∧
       c1Motion.regionRecv
         = ((dblW.boxAt c1Motion.bidxLocal.globalIndex).grow 1).inter
             ((dblW.boxAt c1Motion.bidxRemote.globalIndex).shift shiftBy) ∧
       c1Motion.regionSend
         = (if true then (dblW.boxAt c1Motion.bidxLocal.globalIndex).inter
               (((dblW.boxAt c1Motion.bidxRemote.globalIndex).shift
                 shiftBy).grow 1)
            else Box.emptyBox) ∧
       c1Motion.regionSendRemote = c1Motion.regionRecv.shift shiftBy.neg)) :=
  ⟨by decide, claimC1_motion_regions dblW true 1 0 0 c1Motion (by decide)⟩

/-- Every global index visited by a DataIterator of a constructed layout
(with a valid rank) is a valid table index. -/
theorem dataIterTrace_bounds {P p : Int} {dom : Box} {M : IntVect} {dbl : DBL}
    (h : dblDefine P p dom M = some dbl)
    (hM1 : 1 ≤ M.x) (hM2 : 1 ≤ M.y) (hM3 : 1 ≤ M.z)
    (hd1 : dom.lo.x ≤ dom.hi.x) (hd2 : dom.lo.y ≤ dom.hi.y)
    (hd3 : dom.lo.z ≤ dom.hi.z)
    (hp0 : 0 ≤ p) (hpP : p < P) {g : Int}
    (hg : g ∈ dataIterTrace dbl) : 0 ≤ g ∧ g < dbl.size := by
  obtain ⟨-, -, -, hPart, -, hBeg, -, -, -, -⟩ := dblDefine_inv h
  obtain ⟨-, -, -, -, -, -, hs⟩ := dbl_geom h hM1 hM2 hM3 hd1 hd2 hd3
  unfold dataIterTrace at hg
  rw [List.mem_map] at hg
  obtain ⟨k, hk, rfl⟩ := hg
  rw [List.mem_range] at hk
  have hnlb : 0 ≤ dbl.numLocalBox := by
    by_contra hc
    push_neg at hc
    have h1 : dbl.numLocalBox * P ≤ (-1) * P :=
      mul_le_mul_of_nonneg_right (by omega) (by omega)
    omega
  have hk2 : (k : Int) < dbl.numLocalBox := by omega
  have hup : p * dbl.numLocalBox ≤ (P - 1) * dbl.numLocalBox :=
    mul_le_mul_of_nonneg_right (by omega) hnlb
  have hre : (P - 1) * dbl.numLocalBox
      = dbl.numLocalBox * P - dbl.numLocalBox := by ring
  have hlow : 0 ≤ p * dbl.numLocalBox := mul_nonneg hp0 hnlb
  rw [hBeg]
  omega

/-- Every motion item's receive region lies inside the lattice sub-box at
`base + sendDir` (interior items because the remote box is that sub-box,
periodic items because the periodic shift moves the remote box exactly
there). -/
theorem boxMotions_recv_subset {P p : Int} {dom : Box} {M : IntVect}
    {dbl : DBL} (h : dblDefine P p dom M = some dbl)
    (hM1 : 1 ≤ M.x) (hM2 : 1 ≤ M.y) (hM3 : 1 ≤ M.z)
    (hd1 : dom.lo.x ≤ dom.hi.x) (hd2 : dom.lo.y ≤ dom.hi.y)
    (hd3 : dom.lo.z ≤ dom.hi.z)
    {mpi : Bool} {nghost : Int} {trim periodic : Nat} {g : Int}
    (hg0 : 0 ≤ g) (hgs : g < dbl.size) {m : Motion2Way}
    (hm : m ∈ boxMotions dbl mpi nghost trim periodic g) (q : IntVect)
    (hq : m.regionRecv.containsIV q) :
    (latticeBox dom.lo M ((ivBaseOf dbl g).add m.sendDir)).containsIV q := by
  obtain ⟨-, -, hSize, -, -, -, -, -, hstr, -⟩ := dblDefine_inv h
  obtain ⟨hn1, hn2, hn3, -, -, -, -⟩ := dbl_geom h hM1 hM2 hM3 hd1 hd2 hd3
  obtain ⟨hbr, hbe⟩ := ivBaseOf_spec hstr hn1 hn2 hn3 g hg0 (by omega)
  unfold boxMotions at hm
  rw [List.mem_append] at hm
  rcases hm with hm | hm
  · rw [mem_interiorMotions] at hm
    obtain ⟨off, hoff, rfl⟩ := hm
    obtain ⟨-, hinr, -, -⟩ := mem_neighborOffsets.mp hoff
    have hq2 : (((dbl.boxAt g).grow nghost).inter
        (dbl.boxAt (g + dbl.linearNbrOffset off))).containsIV q := hq
    have henc : g + dbl.linearNbrOffset off
        = encodeZ dbl.numBox ((ivBaseOf dbl g).add off) := by
      rw [linearNbrOffset_encode hstr, encodeZ_add, hbe]
    have hR : dbl.boxAt (g + dbl.linearNbrOffset off)
        = latticeBox dom.lo M ((ivBaseOf dbl g).add off) := by
      rw [henc]
      exact boxAt_encode h hM1 hM2 hM3 hd1 hd2 hd3 hinr
    show (latticeBox dom.lo M ((ivBaseOf dbl g).add off)).containsIV q
    rw [← hR]
    exact (inter_containsIV.mp hq2).2
  · split_ifs at hm with hc
    · cases hm
    · rw [mem_periodicMotions] at hm
      obtain ⟨off, hoff, rfl⟩ := hm
      obtain ⟨-, hPD, -, -, -⟩ := mem_periodicOffsets.mp hoff
      have hPDg : (perPeriodicDomain dbl g periodic).containsIV off := hPD
      have hwr : inRange dbl.numBox
          (wrapPos dbl.numBox periodic ((ivBaseOf dbl g).add off)) :=
        wrapPos_inRange hn1 hn2 hn3 (perPeriodicDomain_containsIV.mp hPDg)
      have henc : g + dbl.linearNbrOffset (perAdjust dbl g periodic off)
          = encodeZ dbl.numBox
              (wrapPos dbl.numBox periodic ((ivBaseOf dbl g).add off)) := by
        rw [linearNbrOffset_encode hstr, perAdjust_eq_wrap hn1 hn2 hn3 hPDg,
          encodeZ_sub, hbe]
        ring
      have hR : dbl.boxAt (g + dbl.linearNbrOffset (perAdjust dbl g periodic off))
          = latticeBox dom.lo M
              (wrapPos dbl.numBox periodic ((ivBaseOf dbl g).add off)) := by
        rw [henc]
        exact boxAt_encode h hM1 hM2 hM3 hd1 hd2 hd3 hwr
      have hL : dbl.boxAt g = latticeBox dom.lo M (ivBaseOf dbl g) :=
        boxAt_g h hM1 hM2 hM3 hd1 hd2 hd3 hg0 hgs
      have hq2 : (((dbl.boxAt g).grow nghost).inter
          ((dbl.boxAt (g + dbl.linearNbrOffset (perAdjust dbl g periodic off))).shift
            (((dbl.boxAt g).lo.sub
                (dbl.boxAt (g + dbl.linearNbrOffset
                  (perAdjust dbl g periodic off))).lo).add
              (off.mulV (dbl.boxAt g).dimensions)))).containsIV q := hq
      rw [hR, hL, latticeBox_shift_image] at hq2
      exact (inter_containsIV.mp hq2).2

/-- CLAIM C6.  Any two distinct motion items of one plan that receive into
the same local box have cellwise disjoint receive regions, so ghost-cell
writes of distinct motions never overlap and the exchange result is
independent of completion order. -/
theorem claimC6_recv_disjoint (P p : Int) (dom : Box) (M : IntVect)
    (dbl : DBL) (h : dblDefine P p dom M = some dbl)
    (hM1 : 1 ≤ M.x) (hM2 : 1 ≤ M.y) (hM3 : 1 ≤ M.z)
    (hd1 : dom.lo.x ≤ dom.hi.x) (hd2 : dom.lo.y ≤ dom.hi.y)
    (hd3 : dom.lo.z ≤ dom.hi.z)
    (hp0 : 0 ≤ p) (hpP : p < P)
    (mpi : Bool) (nghost : Int) (trim periodic : Nat) :
    (copierPlan dbl mpi nghost trim periodic).Pairwise
      (fun m1 m2 => m1.bidxLocal = m2.bidxLocal →
        ∀ q : IntVect,
          ¬ (m1.regionRecv.containsIV q ∧ m2.regionRecv.containsIV q)) := by
  unfold copierPlan
  split_ifs with hgn
  · rw [List.pairwise_flatMap]
    constructor
    · intro g hg
      obtain ⟨hg0, hgs⟩ :=
        dataIterTrace_bounds h hM1 hM2 hM3 hd1 hd2 hd3 hp0 hpP hg
      refine List.Pairwise.imp_of_mem ?_
        (boxMotions_sendDir_pairwise dbl mpi nghost trim periodic g)
      intro m1 m2 h1 h2 hne hbl q
      rintro ⟨hq1, hq2⟩
      have s1 := boxMotions_recv_subset h hM1 hM2 hM3 hd1 hd2 hd3 hg0 hgs h1 q hq1
      have s2 := boxMotions_recv_subset h hM1 hM2 hM3 hd1 hd2 hd3 hg0 hgs h2 q hq2
      have hvne : (ivBaseOf dbl g).add m1.sendDir
          ≠ (ivBaseOf dbl g).add m2.sendDir := by
        intro hcc
        apply hne
        have hx := congrArg IntVect.x hcc
        have hy := congrArg IntVect.y hcc
        have hz := congrArg IntVect.z hcc
        unfold IntVect.add at hx hy hz
        dsimp only at hx hy hz
        exact IntVect.eq_of_comps (by omega) (by omega) (by omega)
      exact isEmpty_not_containsIV (latticeBox_disjoint hM1 hM2 hM3 hvne) q
        (inter_containsIV.mpr ⟨s1, s2⟩)
    · refine List.Pairwise.imp_of_mem ?_ (dataIterTrace_pairwise dbl)
      intro g1 g2 hg1 hg2 hne m1 h1 m2 h2 hbl
      exfalso
      obtain ⟨hb1, -, -⟩ := mem_boxMotions_key h1
      obtain ⟨hb2, -, -⟩ := mem_boxMotions_key h2
      rw [hb1, hb2] at hbl
      exact hne (congrArg BoxIndex.globalIndex hbl)
  · exact List.Pairwise.nil

/-- Witness for C6 at the layout `dblW` with messaging, one ghost cell and
periodicity in x. -/
theorem claimC6_witness :
    (dblDefine 2 0 (Box.mk ⟨0, 0, 0⟩ ⟨3, 3, 3⟩) ⟨2, 2, 2⟩ = some dblW ∧
      (0 : Int) ≤ 0 ∧ (0 : Int) < 2) ∧
    (copierPlan dblW true 1 0 1).Pairwise
      (fun m1 m2 => m1.bidxLocal = m2.bidxLocal →
        ∀ q : IntVect,
          ¬ (m1.regionRecv.containsIV q ∧ m2.regionRecv.containsIV q)) :=
  ⟨⟨by decide, by decide, by decide⟩,
    claimC6_recv_disjoint 2 0 (Box.mk ⟨0, 0, 0⟩ ⟨3, 3, 3⟩) ⟨2, 2, 2⟩ dblW
      (by decide) (by decide) (by decide) (by decide) (by decide) (by decide)
      (by decide) (by decide) (by decide) true 1 0 1⟩

/-- One drain step of `exchange` cannot fail: the locality guard ensures the
buffer it reads was allocated. -/
theorem exchangeStep_ok (plan : List Motion2Way) (l : List Nat) (ridx : Nat) :
    ∃ r, exchangeStep plan (Except.ok l) ridx = Except.ok r := by
  unfold exchangeStep
  dsimp only
  by_cases hp : ridx % 2 = 1
  · rw [if_pos hp]
    by_cases hloc : (plan.getD ((copierMidxForReq plan).getD (ridx / 2) 0)
        motionDefault).isLocal
    · rw [if_pos hloc]
      exact ⟨l, rfl⟩
    · rw [if_neg hloc]
      unfold recvBufferOf
      rw [if_neg (by simpa using hloc)]
      exact ⟨_, rfl⟩
  · rw [if_neg hp]
    exact ⟨l, rfl⟩

/-- The drain of `exchange` succeeds for every completion order. -/
theorem exchangeDrain_ok (plan : List Motion2Way) (order : List Nat) :
    ∃ r, exchangeDrain plan order = Except.ok r := by
  unfold exchangeDrain
  suffices h : ∀ (ord : List Nat) (l : List Nat),
      ∃ r, ord.foldl (exchangeStep plan) (Except.ok l) = Except.ok r from
    h order []
  intro ord
  induction ord with
  | nil => exact fun l => ⟨l, rfl⟩
  | cons a as ih =>
    intro l
    rw [List.foldl_cons]
    obtain ⟨r1, h1⟩ := exchangeStep_ok plan l a
    rw [h1]
    exact ih r1

/-- CLAIM C5 (refuted: code bug in `exchangeEnd`).  On the rank-0 plan of
the 4x1x1 layout `dblC5` (two local motions, then one remote motion with
receive-request index 1 and `midxForReq = [2]`), and for either completion
order of the two MPI requests, the `MPI_Waitany` drain of `exchange` looks
the motion up through `motionItemIndex(ridx)` and unpacks exactly the
non-local motion item 2, while the drain of `exchangeEnd` indexes
`a_copier[ridx/2] = a_copier[0]` — a local motion with no locality guard —
and dereferences its null receive buffer.  The two engines are therefore not
equivalent. -/
theorem claimC5_exchange_end_not_equivalent :
    copierMidxForReq (copierPlan dblC5 true 1 0 0) = [2] ∧
    copierNumReq (copierPlan dblC5 true 1 0 0) = 2 ∧
    exchangeDrain (copierPlan dblC5 true 1 0 0) [0, 1] = Except.ok [2] ∧
    exchangeDrain (copierPlan dblC5 true 1 0 0) [1, 0] = Except.ok [2] ∧
    exchangeEndDrain (copierPlan dblC5 true 1 0 0) [0, 1]
      = Except.error "linearIn from null recvBuffer" ∧
    exchangeEndDrain (copierPlan dblC5 true 1 0 0) [1, 0]
      = Except.error "linearIn from null recvBuffer" :=
  ⟨by decide, by decide, rfl, rfl, rfl, rfl⟩

end BoxFW
